import Mathlib

/-!
Verification of the natural-language→SQL validation and execution pipeline of
the `vercel-postgres` repository (server actions file, latest draft).

The embedding works on `List Char` (the character data of JavaScript strings).
JavaScript string operations are modelled as explicit scanners:

* `String.prototype.replace` with a global literal pattern is a left-to-right
  non-overlapping scan (`replaceAllAux`);
* `/"{2,}/g → '"'` is `collapseQuotesAux` (every maximal run of two or more
  double quotes becomes a single quote; a lone quote is untouched);
* `/\/\*[\s\S]*?\*\//g → ''` is `removeBCAux` (from each `/*` to the nearest
  following `*/`; an unterminated `/*` is kept);
* the column regex `(?<!["'])\b<col>\b(?!["'])` (flags `gi`) is
  `replaceColAux`: a case-insensitive occurrence of the column word whose
  neighbouring characters are word-boundary compatible and are neither `"`
  nor `'`.  The scanner carries the previous original character, which is
  what the lookbehind inspects.

Scanners that consume more than one character per step take explicit fuel
(`fuel = length of the input` at the top-level wrappers); fuel `0` returns the
remaining input unchanged, and one unit of fuel is spent per step while each
step consumes at least one character, so the wrappers never exhaust it.

Only ASCII case mapping is modelled (`Char.toLower` is ASCII-only, which
agrees with JavaScript `toLowerCase` on the ASCII SQL text involved); the
30-second `Promise.race` timeout is real time and is not modelled.
-/

/-- The double-quote character `"`. -/
def dq : Char := Char.ofNat 34

/-- The apostrophe character. -/
def apos : Char := Char.ofNat 39

/-- JavaScript regex word character `\w`, i.e. `[A-Za-z0-9_]`. -/
def isWordC (c : Char) : Bool :=
  (decide (65 ≤ c.toNat) && decide (c.toNat ≤ 90)) ||
  (decide (97 ≤ c.toNat) && decide (c.toNat ≤ 122)) ||
  (decide (48 ≤ c.toNat) && decide (c.toNat ≤ 57)) ||
  c.toNat == 95

/-- ASCII whitespace removed by `String.prototype.trim`. -/
def isWSC (c : Char) : Bool :=
  c.toNat == 32 || c.toNat == 9 || c.toNat == 10 ||
  c.toNat == 13 || c.toNat == 11 || c.toNat == 12

/-- `String.prototype.toLowerCase` (ASCII fragment), characterwise. -/
def lowerL (s : List Char) : List Char := s.map Char.toLower

/-- `String.prototype.trim`: drop leading and trailing whitespace. -/
def jsTrim (s : List Char) : List Char :=
  ((s.dropWhile isWSC).reverse.dropWhile isWSC).reverse

/-- `String.prototype.includes` for an exact pattern. -/
def containsL (pat : List Char) : List Char → Bool
  | [] => pat.isEmpty
  | c :: cs => pat.isPrefixOf (c :: cs) || containsL pat cs

/-- Characterwise pattern comparison; `ci = true` is the regex `i` flag. -/
def charMatches (ci : Bool) (p c : Char) : Bool :=
  if ci then p.toLower == c.toLower else p == c

/-- Does the pattern match at the start of `s` (under flag `ci`)? -/
def startsPat (ci : Bool) : List Char → List Char → Bool
  | [], _ => true
  | _ :: _, [] => false
  | p :: ps, c :: cs => charMatches ci p c && startsPat ci ps cs

/-- One global-replace scan of a literal pattern, as done by
`str.replace(new RegExp(pat, flags), repl)` for a pattern with no regex
metacharacters.  Left to right; after a match the scan resumes after the
matched text. -/
def replaceAllAux (ci : Bool) (pat repl : List Char) : Nat → List Char → List Char
  | 0, s => s
  | _ + 1, [] => []
  | fuel + 1, c :: cs =>
    if startsPat ci pat (c :: cs) then
      repl ++ replaceAllAux ci pat repl fuel (cs.drop (pat.length - 1))
    else
      c :: replaceAllAux ci pat repl fuel cs

/-- Wrapper for `replaceAllAux` with adequate fuel. -/
def replaceAllL (ci : Bool) (pat repl s : List Char) : List Char :=
  replaceAllAux ci pat repl s.length s

/-- The scan of `/"{2,}/g → '"'`: each maximal run of double quotes is
emitted as a single double quote (the regex only matches runs of length ≥ 2,
and a run of length 1 is also emitted as itself). -/
def collapseQuotesAux : Nat → List Char → List Char
  | 0, s => s
  | _ + 1, [] => []
  | fuel + 1, c :: cs =>
    if c == dq then
      dq :: collapseQuotesAux fuel (cs.dropWhile (fun x => x == dq))
    else
      c :: collapseQuotesAux fuel cs

/-- `query.replace(/"{2,}/g, '"')` of the source (`fixColumnQuoting`, first
step: "Remove malformed quotes"). -/
def collapseQuotes (s : List Char) : List Char := collapseQuotesAux s.length s

/-- Scan for the nearest `*/`; returns the text after it, or `none` when the
comment is unterminated. -/
def findClose : List Char → Option (List Char)
  | [] => none
  | [_] => none
  | a :: b :: rest =>
    if a == '*' && b == '/' then some rest
    else findClose (b :: rest)

/-- The scan of `/\/\*[\s\S]*?\*\//g → ''`: each `/*` up to the nearest
following `*/` is removed; a `/*` with no later `*/` stays. -/
def removeBCAux : Nat → List Char → List Char
  | 0, s => s
  | _ + 1, [] => []
  | _ + 1, [c] => [c]
  | fuel + 1, a :: b :: rest =>
    if a == '/' && b == '*' then
      match findClose rest with
      | some r => removeBCAux fuel r
      | none => a :: removeBCAux fuel (b :: rest)
    else
      a :: removeBCAux fuel (b :: rest)

/-- `query.replace(/\/\*[\s\S]*?\*\//g, '')`. -/
def removeBlockComments (s : List Char) : List Char := removeBCAux s.length s

/-- `sanitizeSQL` of the source:
`query.replace(/--/g, '').replace(/;/g, '').replace(/\/\*[\s\S]*?\*\//g, '').trim()`. -/
def sanitizeSQL (query : List Char) : List Char :=
  jsTrim (removeBlockComments
    (replaceAllL false ";".data "".data
      (replaceAllL false "--".data "".data query)))

/-- The combined precondition of `(?<!["'])\b` at a match start whose first
pattern character is a word character: the previous character (if any) is not
a word character and is neither `"` nor `'`. -/
def preOk : Option Char → Bool
  | none => true
  | some c => !(isWordC c) && c != dq && c != apos

/-- The combined postcondition of `\b(?!["'])` after a match whose last
pattern character is a word character. -/
def postOk : List Char → Bool
  | [] => true
  | c :: _ => !(isWordC c) && c != dq && c != apos

/-- Can the column regex `(?<!["'])\b<col>\b(?!["'])` match at the start of
`s`, when the character before `s` is `prev`? -/
def canMatch (ci : Bool) (col : List Char) (prev : Option Char) (s : List Char) : Bool :=
  preOk prev && startsPat ci col s && postOk (s.drop col.length)

/-- The last character of `l`, or `prev` when `l` is empty: the scanner's
record of the previous original character. -/
def scanPrev (prev : Option Char) (l : List Char) : Option Char :=
  l.foldl (fun _ c => some c) prev

/-- The scan of `fixedQuery.replace(regex, '"' + column + '"')` for the
column regex: at each position, if the regex matches, emit the quoted
canonical column and resume after the matched word; otherwise emit the
character.  `prev` is the previous character of the *input*, which is what
the lookbehind reads. -/
def replaceColAux (ci : Bool) (col canon : List Char) : Nat → Option Char → List Char → List Char
  | 0, _, s => s
  | _ + 1, _, [] => []
  | fuel + 1, prev, c :: cs =>
    if canMatch ci col prev (c :: cs) then
      dq :: canon ++ dq :: replaceColAux ci col canon fuel
        (scanPrev prev ((c :: cs).take col.length)) (cs.drop (col.length - 1))
    else
      c :: replaceColAux ci col canon fuel (some c) cs

/-- Wrapper for `replaceColAux` with adequate fuel; replacement text is
`'"' + canon + '"'`. -/
def replaceColL (ci : Bool) (col canon s : List Char) : List Char :=
  replaceColAux ci col canon s.length none s

/-- `SENSITIVE_COLUMNS` of the source. -/
def SENSITIVE_COLUMNS : List String := ["createdAt", "systemMessage"]

/-- `fixColumnQuoting` of the source: collapse malformed quote runs, then for
each sensitive column replace every unquoted case-insensitive word-boundary
occurrence by the double-quoted canonical name (regex flags `gi`). -/
def fixColumnQuoting (query : List Char) : List Char :=
  SENSITIVE_COLUMNS.foldl
    (fun fixedQuery column => replaceColL true column.data column.data fixedQuery)
    (collapseQuotes query)

/-- `FORBIDDEN_KEYWORDS` of the source. -/
def FORBIDDEN_KEYWORDS : List String :=
  ["drop", "delete", "insert", "update", "truncate", "alter"]

/-- The `suspicious` pattern list of `validateQuery`. -/
def suspicious : List String := ["--", "/*", "union", "exec", "xp_", "waitfor"]

/-- The result record of `validateQuery`. -/
structure QueryValidationResult where
  isValid : Bool
  error : Option String
deriving DecidableEq

/-- `validateQuery` of the source: lower-case and trim; require the `select`
word at the start; reject the first forbidden keyword contained; reject any
suspicious pattern contained. -/
def validateQuery (query : List Char) : QueryValidationResult :=
  let sanitized := jsTrim (lowerL query)
  if !("select".data.isPrefixOf sanitized) then
    ⟨false, some "Only SELECT queries are allowed"⟩
  else
    match FORBIDDEN_KEYWORDS.find? (fun keyword => containsL keyword.data sanitized) with
    | some keyword => ⟨false, some ("Query contains forbidden keyword: " ++ keyword)⟩
    | none =>
      if suspicious.any (fun pat => containsL pat.data sanitized) then
        ⟨false, some "Query contains suspicious patterns"⟩
      else
        ⟨true, none⟩

/-- Rows returned by the database: each row maps column names to scalar
values (scalars modelled as strings). -/
abbrev ResultRow := List (String × String)

/-- A database response: rows, or a `PostgresError` carrying `code`. -/
inductive DbResp where
  | ok : List ResultRow → DbResp
  | err : String → DbResp
deriving DecidableEq

/-- One SQL string submitted to the database, tagged by the call site:
`attempt` for the two `sql.query(sanitizedQuery)` sites of `getLegalPrompts`,
`admin` for the two statements of `createAndSeedTable`. -/
inductive DbCall where
  | attempt : List Char → DbCall
  | admin : List Char → DbCall
deriving DecidableEq

/-- The `errorMap` of `handlePostgresError`. -/
def errorMap : List (String × String) :=
  [("42601", "Invalid SQL syntax. Please check your query."),
   ("42703", "Invalid column reference. Please verify column names."),
   ("42P01", "Table does not exist."),
   ("23505", "Duplicate key violation."),
   ("23503", "Foreign key violation."),
   ("57014", "Query cancelled due to timeout."),
   ("53400", "Out of memory."),
   ("42883", "Undefined function."),
   ("42P02", "Undefined parameter."),
   ("23502", "Not null violation."),
   ("22001", "String data right truncation."),
   ("22003", "Numeric value out of range."),
   ("22007", "Invalid datetime format."),
   ("22P02", "Invalid text representation.")]

/-- The message thrown by `handlePostgresError` for a Postgres error with the
given code (`errorMap[error.code] || 'An unexpected database error occurred'`;
the optional `detail` suffix is not modelled). -/
def handlePostgresErrorMsg (code : String) : String :=
  (List.lookup code errorMap).getD "An unexpected database error occurred"

/-- The `createTableQuery` template literal of `createAndSeedTable`. -/
def createTableQuery : String :=
  "\n    CREATE TABLE legalprompt (\n      id SERIAL PRIMARY KEY,\n      name VARCHAR(255) NOT NULL,\n      prompt TEXT NOT NULL,\n      category VARCHAR(255) NOT NULL,\n      \x22createdAt\x22 TIMESTAMP NOT NULL DEFAULT NOW(),\n      \x22systemMessage\x22 TEXT\n    );\n  "

/-- The `seedQuery` template literal of `createAndSeedTable`. -/
def seedQuery : String :=
  "\n    INSERT INTO legalprompt (name, prompt, category, \x22systemMessage\x22)\n    VALUES \n      (\x27Prompt 1\x27, \x27This is the first prompt\x27, \x27Category 1\x27, \x27System message 1\x27),\n      (\x27Prompt 2\x27, \x27This is the second prompt\x27, \x27Category 2\x27, \x27System message 2\x27),\n      (\x27Prompt 3\x27, \x27This is the third prompt\x27, \x27Category 3\x27, NULL);\n  "

/-- The three seed rows of `seedQuery`, as structured data
(name, prompt, category, systemMessage). -/
def seedValues : List (String × String × String × Option String) :=
  [("Prompt 1", "This is the first prompt", "Category 1", some "System message 1"),
   ("Prompt 2", "This is the second prompt", "Category 2", some "System message 2"),
   ("Prompt 3", "This is the third prompt", "Category 3", none)]

/-- Non-overlapping count of the occurrences of `pat` in `s` (used to count
the value tuples of `seedQuery`). -/
def countOccur (pat : List Char) : List Char → Nat
  | [] => 0
  | c :: cs => if pat.isPrefixOf (c :: cs) then 1 + countOccur pat cs else countOccur pat cs

/-- `getLegalPrompts` of the source over an abstract database.  The database
is an oracle mapping the list of previously issued calls and the submitted
SQL text to a response.  The function returns the result of the action
(`Except.error` models a thrown `Error` with that message) together with the
full list of issued calls.  Control flow of the source: validate the raw
query; sanitize (`fixColumnQuoting (sanitizeSQL query)`); execute; on error
code `42P01` run `createAndSeedTable` (create then seed) and retry the same
sanitized query once, mapping any error of that inner block through
`handlePostgresError`; any other error is mapped through
`handlePostgresError` directly.  The `Promise.race` timeout is real time and
not modelled. -/
def getLegalPrompts (oracle : List DbCall → List Char → DbResp) (query : List Char) :
    Except String (List ResultRow) × List DbCall :=
  let validation := validateQuery query
  if !validation.isValid then
    (Except.error (validation.error.getD "Invalid query"), [])
  else
    let sanitizedQuery := fixColumnQuoting (sanitizeSQL query)
    let trace1 := [DbCall.attempt sanitizedQuery]
    match oracle [] sanitizedQuery with
    | DbResp.ok rows => (Except.ok rows, trace1)
    | DbResp.err code =>
      if code == "42P01" then
        let trace2 := trace1 ++ [DbCall.admin createTableQuery.data]
        match oracle trace1 createTableQuery.data with
        | DbResp.err c => (Except.error (handlePostgresErrorMsg c), trace2)
        | DbResp.ok _ =>
          let trace3 := trace2 ++ [DbCall.admin seedQuery.data]
          match oracle trace2 seedQuery.data with
          | DbResp.err c => (Except.error (handlePostgresErrorMsg c), trace3)
          | DbResp.ok _ =>
            let trace4 := trace3 ++ [DbCall.attempt sanitizedQuery]
            match oracle trace3 sanitizedQuery with
            | DbResp.ok rows => (Except.ok rows, trace4)
            | DbResp.err c => (Except.error (handlePostgresErrorMsg c), trace4)
      else
        (Except.error (handlePostgresErrorMsg code), trace1)

/-- The `configSchema` record of `lib/types.ts` (a `record` of zod is
modelled as an association list). -/
structure Config where
  type : String
  xKey : String
  yKeys : List String
  colors : Option (List (String × String)) := none
  legend : Option Bool := none
  multipleLines : Option Bool := none
  measurementColumn : Option String := none
deriving DecidableEq

/-- `generateChartConfig` of the source.  The external structured-generation
call is an oracle `svc` (its failure models a thrown/rejected `generateObject`).
Returns the action result together with a flag telling whether the external
service was invoked.  Control flow of the source: throw
`'No data available for visualization'` when the row list is empty, before
the `try` block; inside the `try`: call the service, throw on missing
`yKeys`, assign each series key the colour `hsl(var(--chart-(i % 12)+1))`,
and override `legend` with `yKeys.length > 1`; the `catch` rethrows as
`'Failed to generate chart: ' + message`. -/
def generateChartConfig (svc : Except String Config) (results : List ResultRow)
    (_userQuery : String) : Except String Config × Bool :=
  if results.length == 0 then
    (Except.error "No data available for visualization", false)
  else
    match svc with
    | Except.error msg => (Except.error ("Failed to generate chart: " ++ msg), true)
    | Except.ok config =>
      if config.yKeys.length == 0 then
        (Except.error ("Failed to generate chart: " ++ "Invalid chart configuration: missing yKeys"), true)
      else
        let colors := config.yKeys.enum.map
          (fun p => (p.2, "hsl(var(--chart-" ++ toString (p.1 % 12 + 1) ++ "))"))
        (Except.ok { config with
            colors := some colors,
            legend := some (decide (1 < config.yKeys.length)) }, true)

/-- The bounded colour palette cycled through by `generateChartConfig`:
`hsl(var(--chart-1))` … `hsl(var(--chart-12))`. -/
def chartPalette : List String :=
  (List.range 12).map (fun j => "hsl(var(--chart-" ++ toString (j + 1) ++ "))")

/-- The scan of `/""+([^"]+)""+/g → '"$1"'` of the earlier draft's
`fixColumnQuoting` (`app/actions.ts`): at each position, a run of two or more
double quotes, then a nonempty run of non-quotes, then a run of two or more
double quotes, collapses to the middle run wrapped in single double quotes;
on failure the scan advances one character. -/
def collapseAAux : Nat → List Char → List Char
  | 0, s => s
  | _ + 1, [] => []
  | fuel + 1, c :: cs =>
    let q1 := (c :: cs).takeWhile (fun x => x == dq)
    let r1 := (c :: cs).dropWhile (fun x => x == dq)
    let mid := r1.takeWhile (fun x => x != dq)
    let r2 := r1.dropWhile (fun x => x != dq)
    let q2 := r2.takeWhile (fun x => x == dq)
    if 2 ≤ q1.length && !mid.isEmpty && 2 ≤ q2.length then
      dq :: mid ++ dq :: collapseAAux fuel (r2.dropWhile (fun x => x == dq))
    else
      c :: collapseAAux fuel cs

/-- `fixColumnQuoting` of the earlier draft (`app/actions.ts`): collapse
`""…x…""` quote runs, then quote the sensitive columns with a
*case-sensitive* word-boundary regex (flag `g` only). -/
def fixColumnQuotingA (query : List Char) : List Char :=
  let f1 := collapseAAux query.length query
  ["createdAt", "systemMessage"].foldl
    (fun fixedQuery column => replaceColL false column.data column.data fixedQuery) f1

/-- The `columnMappings` table of the earlier draft's `generateQuery`
(`app/actions.ts`), in object insertion order. -/
def columnMappings : List (String × String) :=
  [("createdat", "\x22createdAt\x22"),
   ("created_at", "\x22createdAt\x22"),
   ("systemmessage", "\x22systemMessage\x22"),
   ("system_message", "\x22systemMessage\x22"),
   ("\x22\x22createdAt\x22\x22", "\x22createdAt\x22"),
   ("\x22\x22systemMessage\x22\x22", "\x22systemMessage\x22"),
   ("\x22\x27createdAt\x27\x22", "\x22createdAt\x22"),
   ("\x22\x27systemMessage\x27\x22", "\x22systemMessage\x22")]

/-- The mapping pass of the earlier draft's `generateQuery`: for each entry a
global case-insensitive literal replace (`new RegExp(incorrect, 'gi')`),
with *no* word boundaries. -/
def applyColumnMappings (q : List Char) : List Char :=
  columnMappings.foldl (fun acc m => replaceAllL true m.1.data m.2.data acc) q

/-- The whole normalization applied by the earlier draft's `generateQuery`
to the text returned by the model: the column-mapping pass followed by
`fixColumnQuoting`. -/
def normalizeGeneratedQuery (q : List Char) : List Char :=
  fixColumnQuotingA (applyColumnMappings q)

/-- Is there a position in `s` (whose preceding character is `prev`) where
the column regex can match? -/
def hasMatchB (ci : Bool) (col : List Char) : Option Char → List Char → Bool
  | _, [] => false
  | prev, c :: cs => canMatch ci col prev (c :: cs) || hasMatchB ci col (some c) cs

/-- `\b` before a match start (first pattern character being a word
character): previous character absent or not a word character. -/
def boundaryPre : Option Char → Bool
  | none => true
  | some c => !(isWordC c)

/-- `\b` after a match end. -/
def boundaryPost : List Char → Bool
  | [] => true
  | c :: _ => !(isWordC c)

/-- Is there a case-insensitive occurrence of `col` in `s` that has a word
boundary on both sides (i.e. one *not* flanked by a word character)?  This
ignores the quote lookarounds: it is exactly "the tracked name occurs other
than as a proper substring of a longer identifier". -/
def hasFreeOccur (col : List Char) : Option Char → List Char → Bool
  | _, [] => false
  | prev, c :: cs =>
    (boundaryPre prev && startsPat true col (c :: cs) &&
      boundaryPost ((c :: cs).drop col.length)) || hasFreeOccur col (some c) cs

/-- No two adjacent double quotes anywhere in `s`. -/
def NoDq (s : List Char) : Prop :=
  List.Chain' (fun a b => ¬(a = dq ∧ b = dq)) s

/-- Computable check for `NoDq`. -/
def noDqB : List Char → Bool
  | [] => true
  | [_] => true
  | a :: b :: l => !(a == dq && b == dq) && noDqB (b :: l)

/-- `replaceColAux` with canonical fuel (the length of its input). -/
def replaceColGo (ci : Bool) (col canon : List Char) (prev : Option Char) (s : List Char) : List Char :=
  replaceColAux ci col canon s.length prev s

/-- Every character of the pattern lower-cases to an ASCII lower-case
letter (true of both sensitive column names). -/
def LettersCol (col : List Char) : Prop :=
  ∀ p ∈ col, 97 ≤ p.toLower.toNat ∧ p.toLower.toNat ≤ 122

instance (col : List Char) : Decidable (LettersCol col) :=
  inferInstanceAs (Decidable (∀ p ∈ col, 97 ≤ p.toLower.toNat ∧ p.toLower.toNat ≤ 122))

/-- Every character of the list is a word character. -/
def WordsCol (l : List Char) : Prop := ∀ p ∈ l, isWordC p = true

instance (l : List Char) : Decidable (WordsCol l) :=
  inferInstanceAs (Decidable (∀ p ∈ l, isWordC p = true))

/-! ### Character-level facts -/

theorem toLower_toNat (c : Char) :
    c.toLower.toNat = if 65 ≤ c.toNat ∧ c.toNat ≤ 90 then c.toNat + 32 else c.toNat := by
  simp only [Char.toLower]
  split
  · rename_i h
    have hv : (c.toNat + 32).isValidChar := Or.inl (by omega)
    rw [Char.ofNat, dif_pos hv]
    rfl
  · rfl

theorem isWordC_toLower (c : Char) : isWordC c.toLower = isWordC c := by
  have h := toLower_toNat c
  rw [Bool.eq_iff_iff]
  simp only [isWordC, Bool.or_eq_true, Bool.and_eq_true, decide_eq_true_eq, beq_iff_eq, h]
  split <;> omega

theorem isWSC_toLower (c : Char) : isWSC c.toLower = isWSC c := by
  have h := toLower_toNat c
  rw [Bool.eq_iff_iff]
  simp only [isWSC, Bool.or_eq_true, beq_iff_eq, h]
  split <;> omega

theorem ne_of_toNat_ne {c d : Char} (h : c.toNat ≠ d.toNat) : c ≠ d :=
  fun e => absurd (congrArg Char.toNat e) h

theorem ne_dq_of_isWordC {c : Char} (h : isWordC c = true) : c ≠ dq := by
  intro e; subst e; exact absurd h (by decide)

theorem ne_apos_of_isWordC {c : Char} (h : isWordC c = true) : c ≠ apos := by
  intro e; subst e; exact absurd h (by decide)

theorem isWordC_of_matched {p c : Char} (hp1 : 97 ≤ p.toLower.toNat) (hp2 : p.toLower.toNat ≤ 122)
    (h : charMatches true p c = true) : isWordC c = true := by
  simp only [charMatches, if_pos, beq_iff_eq] at h
  have hp : 97 ≤ c.toLower.toNat ∧ c.toLower.toNat ≤ 122 := by rw [← h]; exact ⟨hp1, hp2⟩
  have h2 := toLower_toNat c
  rw [h2] at hp
  simp only [isWordC, Bool.or_eq_true, Bool.and_eq_true, decide_eq_true_eq, beq_iff_eq]
  split at hp <;> omega

/-! ### Fuel irrelevance and canonical equations for the scanners -/

theorem replaceColAux_fuel {ci : Bool} {col canon : List Char} :
    ∀ fuel fuel' (prev : Option Char) (s : List Char), s.length ≤ fuel → s.length ≤ fuel' →
      replaceColAux ci col canon fuel prev s = replaceColAux ci col canon fuel' prev s := by
  intro fuel
  induction fuel with
  | zero =>
    intro fuel' prev s h _
    have : s = [] := List.eq_nil_of_length_eq_zero (Nat.le_zero.mp h)
    subst this
    cases fuel' <;> rfl
  | succ n ih =>
    intro fuel' prev s h h'
    cases s with
    | nil => cases fuel' <;> rfl
    | cons c cs =>
      cases fuel' with
      | zero => simp at h'
      | succ m =>
        simp only [List.length_cons] at h h'
        simp only [replaceColAux]
        by_cases hc : canMatch ci col prev (c :: cs) = true
        · rw [if_pos hc, if_pos hc]
          have hd : (cs.drop (col.length - 1)).length ≤ cs.length := by
            rw [List.length_drop]; omega
          rw [ih m _ _ (by omega) (by omega)]
        · rw [if_neg hc, if_neg hc, ih m _ _ (by omega) (by omega)]

theorem replaceColGo_eq {ci : Bool} {col canon : List Char} {fuel : Nat} {prev : Option Char}
    {s : List Char} (h : s.length ≤ fuel) :
    replaceColAux ci col canon fuel prev s = replaceColGo ci col canon prev s :=
  replaceColAux_fuel fuel s.length prev s h le_rfl

theorem replaceColGo_nil {ci : Bool} {col canon : List Char} {prev : Option Char} :
    replaceColGo ci col canon prev [] = [] := rfl

theorem replaceColGo_cons_match {ci : Bool} {col canon : List Char} {prev : Option Char}
    {c : Char} {cs : List Char} (h : canMatch ci col prev (c :: cs) = true) :
    replaceColGo ci col canon prev (c :: cs) =
      dq :: canon ++ dq :: replaceColGo ci col canon
        (scanPrev prev ((c :: cs).take col.length)) (cs.drop (col.length - 1)) := by
  show replaceColAux ci col canon (cs.length + 1) prev (c :: cs) = _
  simp only [replaceColAux, if_pos h]
  rw [replaceColGo_eq (by rw [List.length_drop]; omega)]

theorem replaceColGo_cons_else {ci : Bool} {col canon : List Char} {prev : Option Char}
    {c : Char} {cs : List Char} (h : canMatch ci col prev (c :: cs) = false) :
    replaceColGo ci col canon prev (c :: cs) = c :: replaceColGo ci col canon (some c) cs := by
  show replaceColAux ci col canon (cs.length + 1) prev (c :: cs) = _
  have h' : ¬(canMatch ci col prev (c :: cs) = true) := by simp [h]
  simp only [replaceColAux, if_neg h']
  rw [replaceColGo_eq le_rfl]

theorem replaceColL_eq_go {ci : Bool} {col canon s : List Char} :
    replaceColL ci col canon s = replaceColGo ci col canon none s := rfl

theorem collapseQuotesAux_fuel :
    ∀ fuel fuel' (s : List Char), s.length ≤ fuel → s.length ≤ fuel' →
      collapseQuotesAux fuel s = collapseQuotesAux fuel' s := by
  intro fuel
  induction fuel with
  | zero =>
    intro fuel' s h _
    have : s = [] := List.eq_nil_of_length_eq_zero (Nat.le_zero.mp h)
    subst this
    cases fuel' <;> rfl
  | succ n ih =>
    intro fuel' s h h'
    cases s with
    | nil => cases fuel' <;> rfl
    | cons c cs =>
      cases fuel' with
      | zero => simp at h'
      | succ m =>
        simp only [List.length_cons] at h h'
        simp only [collapseQuotesAux]
        by_cases hc : (c == dq) = true
        · rw [if_pos hc, if_pos hc]
          have hd : (cs.dropWhile (fun x => x == dq)).length ≤ cs.length :=
            (List.dropWhile_suffix _).sublist.length_le
          rw [ih m _ (by omega) (by omega)]
        · rw [if_neg hc, if_neg hc, ih m _ (by omega) (by omega)]

theorem collapseQuotes_eq {fuel : Nat} {s : List Char} (h : s.length ≤ fuel) :
    collapseQuotesAux fuel s = collapseQuotes s :=
  collapseQuotesAux_fuel fuel s.length s h le_rfl

theorem collapseQuotes_nil : collapseQuotes [] = [] := rfl

theorem collapseQuotes_cons_dq {cs : List Char} :
    collapseQuotes (dq :: cs) = dq :: collapseQuotes (cs.dropWhile (fun x => x == dq)) := by
  show collapseQuotesAux (cs.length + 1) (dq :: cs) = _
  simp only [collapseQuotesAux, if_pos (beq_self_eq_true dq)]
  rw [collapseQuotes_eq (List.dropWhile_suffix _).sublist.length_le]

theorem collapseQuotes_cons_ne {c : Char} {cs : List Char} (h : c ≠ dq) :
    collapseQuotes (c :: cs) = c :: collapseQuotes cs := by
  show collapseQuotesAux (cs.length + 1) (c :: cs) = _
  have h' : ¬((c == dq) = true) := by simp [h]
  simp only [collapseQuotesAux, if_neg h']
  rw [collapseQuotes_eq le_rfl]

/-! ### Heads of scanner outputs -/

theorem collapseQuotes_head? (s : List Char) : (collapseQuotes s).head? = s.head? := by
  cases s with
  | nil => rfl
  | cons c cs =>
    by_cases h : c = dq
    · subst h; rw [collapseQuotes_cons_dq]; rfl
    · rw [collapseQuotes_cons_ne h]; rfl

theorem replaceColGo_head?_else {ci : Bool} {col canon : List Char} {prev : Option Char}
    {s : List Char} (h : canMatch ci col prev s = false) :
    (replaceColGo ci col canon prev s).head? = s.head? := by
  cases s with
  | nil => rfl
  | cons c cs => rw [replaceColGo_cons_else h]; rfl

/-! ### `NoDq` facts -/

theorem NoDq_of_all_ne {l : List Char} (h : ∀ c ∈ l, c ≠ dq) : NoDq l := by
  induction l with
  | nil => exact List.chain'_nil
  | cons c cs ih =>
    rw [NoDq, List.chain'_cons']
    refine ⟨fun y _ hy => (h c (by simp)) hy.1, ih fun x hx => h x (by simp [hx])⟩

theorem NoDq.tail_of_cons {c : Char} {l : List Char} (h : NoDq (c :: l)) : NoDq l :=
  (List.chain'_cons'.mp h).2

theorem NoDq.head_ne {c : Char} {x : Char} {l : List Char} (h : NoDq (c :: l))
    (hc : c = dq) (hx : l.head? = some x) : x ≠ dq := by
  intro he
  exact (List.chain'_cons'.mp h).1 x hx ⟨hc, he⟩

theorem NoDq_collapseQuotes (s : List Char) : NoDq (collapseQuotes s) := by
  generalize hn : s.length = n
  induction n using Nat.strong_induction_on generalizing s with
  | _ n ih =>
    cases s with
    | nil => exact List.chain'_nil
    | cons c cs =>
      by_cases h : c = dq
      · subst h
        rw [collapseQuotes_cons_dq, NoDq, List.chain'_cons']
        constructor
        · intro y hy he
          rw [collapseQuotes_head?] at hy
          have h2 := List.head?_dropWhile_not (fun x => x == dq) cs
          rw [hy] at h2
          have h3 : (y == dq) = false := h2
          simp [he.2] at h3
        · exact ih ((cs.dropWhile (fun x => x == dq)).length)
            (by have h9 : List.dropWhile (fun x => x == dq) cs <:+ cs :=
                  List.dropWhile_suffix _
                have := h9.sublist.length_le
                simp only [← hn, List.length_cons]; omega) _ rfl
      · rw [collapseQuotes_cons_ne h, NoDq, List.chain'_cons']
        constructor
        · intro y _ he; exact h he.1
        · exact ih cs.length (by simp [← hn]) _ rfl

theorem collapseQuotes_of_NoDq {s : List Char} (h : NoDq s) : collapseQuotes s = s := by
  induction s with
  | nil => rfl
  | cons c cs ih =>
    by_cases hc : c = dq
    · subst hc
      rw [collapseQuotes_cons_dq]
      have hcs : cs.dropWhile (fun x => x == dq) = cs := by
        cases cs with
        | nil => rfl
        | cons x xs =>
          have hx : x ≠ dq := by
            intro he
            exact (List.chain'_cons'.mp h).1 x rfl ⟨rfl, he⟩
          rw [List.dropWhile_cons_of_neg (by simp [hx])]
      rw [hcs, ih h.tail_of_cons]
    · rw [collapseQuotes_cons_ne hc, ih h.tail_of_cons]

/-! ### Basic facts about `canMatch`, `scanPrev`, `startsPat` -/

theorem canMatch_false_of_preOk {ci : Bool} {col : List Char} {prev : Option Char}
    {s : List Char} (h : preOk prev = false) : canMatch ci col prev s = false := by
  simp [canMatch, h]

theorem preOk_some_word {c : Char} (h : isWordC c = true) : preOk (some c) = false := by
  simp [preOk, h]

theorem preOk_some_dq : preOk (some dq) = false := by decide

theorem hasMatchB_congr_prev {ci : Bool} {col : List Char} {p p' : Option Char}
    (h : preOk p = false) (h' : preOk p' = false) (s : List Char) :
    hasMatchB ci col p s = hasMatchB ci col p' s := by
  cases s with
  | nil => rfl
  | cons c cs =>
    simp only [hasMatchB, canMatch_false_of_preOk h, canMatch_false_of_preOk h']

theorem scanPrev_nil {prev : Option Char} : scanPrev prev [] = prev := rfl

theorem scanPrev_cons {prev : Option Char} {c : Char} {l : List Char} :
    scanPrev prev (c :: l) = scanPrev (some c) l := rfl

theorem scanPrev_mem {prev : Option Char} {l : List Char} (h : l ≠ []) :
    ∃ c ∈ l, scanPrev prev l = some c := by
  induction l generalizing prev with
  | nil => exact absurd rfl h
  | cons x xs ih =>
    cases xs with
    | nil => exact ⟨x, by simp, rfl⟩
    | cons y ys =>
      obtain ⟨c, hc, he⟩ := @ih (some x) (by simp)
      exact ⟨c, by simp [hc], by rw [scanPrev_cons]; exact he⟩

theorem startsPat_words {col : List Char} (hcol : LettersCol col) :
    ∀ {s : List Char}, startsPat true col s = true → ∀ c ∈ s.take col.length, isWordC c = true := by
  induction col with
  | nil => intro s _ c hc; simp at hc
  | cons p ps ih =>
    intro s hs c hc
    cases s with
    | nil => simp [startsPat] at hs
    | cons x xs =>
      simp only [startsPat, Bool.and_eq_true] at hs
      simp only [List.length_cons, List.take_succ_cons, List.mem_cons] at hc
      rcases hc with rfl | hc
      · exact isWordC_of_matched (hcol p (by simp)).1 (hcol p (by simp)).2 hs.1
      · exact ih (fun q hq => hcol q (by simp [hq])) hs.2 c hc

theorem startsPat_length_le {ci : Bool} :
    ∀ {col s : List Char}, startsPat ci col s = true → col.length ≤ s.length := by
  intro col
  induction col with
  | nil => simp
  | cons p ps ih =>
    intro s hs
    cases s with
    | nil => simp [startsPat] at hs
    | cons x xs =>
      simp only [startsPat, Bool.and_eq_true] at hs
      have := ih hs.2
      simp only [List.length_cons]
      omega

theorem startsPat_dq_head {col : List Char} (hcol : LettersCol col) (hne : col ≠ [])
    {t : List Char} : startsPat true col (dq :: t) = false := by
  cases col with
  | nil => exact absurd rfl hne
  | cons p ps =>
    have hp := hcol p (by simp)
    simp only [startsPat, charMatches, if_pos, Bool.and_eq_false_iff]
    left
    have : dq.toLower = dq := by decide
    rw [this]
    simp only [beq_eq_false_iff_ne, ne_eq]
    intro he
    rw [he] at hp
    simp [dq] at hp

/-- Scanning a block of word characters followed by a closing quote: no match
can start inside the block (every previous character is a word character) nor
at its very start when `preOk prev` already fails. -/
theorem hasMatchB_words_dq {ci : Bool} {col : List Char} :
    ∀ {u : List Char}, WordsCol u → ∀ {p : Option Char}, preOk p = false → ∀ {t : List Char},
      hasMatchB ci col p (u ++ dq :: t) = hasMatchB ci col (some dq) t := by
  intro u
  induction u with
  | nil =>
    intro _ p hp t
    simp only [List.nil_append, hasMatchB, canMatch_false_of_preOk hp, Bool.false_or]
  | cons x xs ih =>
    intro hu p hp t
    simp only [List.cons_append, hasMatchB, canMatch_false_of_preOk hp, Bool.false_or]
    exact ih (fun q hq => hu q (by simp [hq])) (preOk_some_word (hu x (by simp)))

/-- A pattern of letters matching at the start of a scanner output matches at
the start of the scanner input, and the output beyond the matched part is the
scanner output of the input beyond the matched part. -/
theorem startsPat_go_decomp {ci : Bool} {col canon : List Char} :
    ∀ {pat : List Char}, LettersCol pat → ∀ {prev : Option Char} {s : List Char},
      startsPat true pat (replaceColGo ci col canon prev s) = true →
      startsPat true pat s = true ∧
        (replaceColGo ci col canon prev s).drop pat.length =
          replaceColGo ci col canon (scanPrev prev (s.take pat.length)) (s.drop pat.length) := by
  intro pat
  induction pat with
  | nil =>
    intro _ prev s _
    simp [startsPat, scanPrev_nil]
  | cons q qs ih =>
    intro hpat prev s hs
    cases s with
    | nil => simp [replaceColGo_nil, startsPat] at hs
    | cons c cs =>
      by_cases hm : canMatch ci col prev (c :: cs) = true
      · rw [replaceColGo_cons_match hm, List.cons_append] at hs
        rw [startsPat_dq_head hpat (by simp)] at hs
        exact absurd hs (by simp)
      · rw [replaceColGo_cons_else (by simpa using hm)] at hs ⊢
        simp only [startsPat, Bool.and_eq_true] at hs
        obtain ⟨h1, h2⟩ := hs
        obtain ⟨h3, h4⟩ := ih (fun x hx => hpat x (by simp [hx])) h2
        refine ⟨by simp [startsPat, h1, h3], ?_⟩
        simp only [List.length_cons, List.drop_succ_cons, List.take_succ_cons, scanPrev_cons]
        exact h4

theorem postOk_go {ci : Bool} {col canon : List Char} {prev : Option Char} {t : List Char}
    (h : postOk (replaceColGo ci col canon prev t) = true) : postOk t = true := by
  cases t with
  | nil => rfl
  | cons c cs =>
    by_cases hm : canMatch ci col prev (c :: cs) = true
    · rw [replaceColGo_cons_match hm] at h
      simp [postOk] at h
    · rw [replaceColGo_cons_else (by simpa using hm)] at h
      exact h

/-- A letters-pattern match somewhere on a scanner output cannot be created
by the scanner: it transfers to the input (same position, same previous
character). -/
theorem canMatch_go {pat : List Char} (hpat : LettersCol pat) {ci : Bool}
    {col canon : List Char} {prev : Option Char} {s : List Char}
    (h : canMatch true pat prev (replaceColGo ci col canon prev s) = true) :
    canMatch true pat prev s = true := by
  simp only [canMatch, Bool.and_eq_true] at h ⊢
  obtain ⟨⟨h1, h2⟩, h3⟩ := h
  obtain ⟨h4, h5⟩ := startsPat_go_decomp hpat h2
  rw [h5] at h3
  exact ⟨⟨h1, h4⟩, postOk_go h3⟩

theorem canMatch_parts {ci : Bool} {col : List Char} {prev : Option Char} {s : List Char}
    (h : canMatch ci col prev s = true) :
    preOk prev = true ∧ startsPat ci col s = true ∧ postOk (s.drop col.length) = true := by
  simp only [canMatch, Bool.and_eq_true] at h
  exact ⟨h.1.1, h.1.2, h.2⟩

theorem match_prev_word {col : List Char} (hcol : LettersCol col) (hne : col ≠ [])
    {prev : Option Char} {c : Char} {cs : List Char}
    (hm : canMatch true col prev (c :: cs) = true) :
    ∃ w, scanPrev prev ((c :: cs).take col.length) = some w ∧ isWordC w = true := by
  obtain ⟨-, hstart, -⟩ := canMatch_parts hm
  have htake : (c :: cs).take col.length ≠ [] := by
    cases col with
    | nil => exact absurd rfl hne
    | cons q qs => simp [List.take_succ_cons]
  obtain ⟨w, hw, he⟩ := @scanPrev_mem prev _ htake
  exact ⟨w, he, startsPat_words hcol hstart w hw⟩

theorem rest_drop_eq {c : Char} {cs col : List Char} (hne : col ≠ []) :
    cs.drop (col.length - 1) = (c :: cs).drop col.length := by
  cases col with
  | nil => exact absurd rfl hne
  | cons q qs => simp

theorem postOk_head_ne_dq {y : Char} {t : List Char} (h : postOk (y :: t) = true) : y ≠ dq := by
  simp only [postOk, Bool.and_eq_true, bne_iff_ne] at h
  exact h.1.2

theorem hasMatchB_drop_lift {pat : List Char} :
    ∀ (k : Nat) {s : List Char} {prev : Option Char},
      hasMatchB true pat (scanPrev prev (s.take k)) (s.drop k) = true →
      hasMatchB true pat prev s = true := by
  intro k
  induction k with
  | zero => intro s prev h; simpa [scanPrev_nil] using h
  | succ k ih =>
    intro s prev h
    cases s with
    | nil => simp [hasMatchB] at h
    | cons c cs =>
      simp only [List.take_succ_cons, List.drop_succ_cons, scanPrev_cons] at h
      have := ih h
      simp only [hasMatchB, Bool.or_eq_true]
      exact Or.inr this

/-- The scanner's own column cannot match anywhere on the scanner output. -/
theorem hasMatchB_go_self {col canon : List Char} (hcol : LettersCol col)
    (hcanon : WordsCol canon) (hne : col ≠ []) :
    ∀ n (s : List Char), s.length ≤ n → ∀ prev : Option Char,
      hasMatchB true col prev (replaceColGo true col canon prev s) = false := by
  intro n
  induction n with
  | zero =>
    intro s h prev
    have : s = [] := List.eq_nil_of_length_eq_zero (Nat.le_zero.mp h)
    subst this; rfl
  | succ n ih =>
    intro s h prev
    cases s with
    | nil => rfl
    | cons c cs =>
      simp only [List.length_cons] at h
      by_cases hm : canMatch true col prev (c :: cs) = true
      · rw [replaceColGo_cons_match hm, List.cons_append]
        obtain ⟨w, hw, hword⟩ := match_prev_word hcol hne hm
        simp only [hasMatchB, Bool.or_eq_false_iff]
        constructor
        · simp [canMatch, startsPat_dq_head hcol hne]
        · rw [hw, hasMatchB_words_dq hcanon preOk_some_dq,
            hasMatchB_congr_prev preOk_some_dq (preOk_some_word hword)]
          have hlen : (cs.drop (col.length - 1)).length ≤ n := by
            rw [List.length_drop]; omega
          exact ih _ hlen _
      · have hgo : replaceColGo true col canon prev (c :: cs) =
            c :: replaceColGo true col canon (some c) cs :=
          replaceColGo_cons_else (by simpa using hm)
        rw [hgo]
        simp only [hasMatchB, Bool.or_eq_false_iff]
        constructor
        · by_contra hcm
          rw [Bool.not_eq_false] at hcm
          rw [← hgo] at hcm
          exact hm (canMatch_go hcol hcm)
        · exact ih cs (by omega) (some c)

/-- The scanner for one column cannot create a match of another
letters-pattern: a match on the output transfers to the input. -/
theorem hasMatchB_go_other {pat col canon : List Char} (hpat : LettersCol pat)
    (hpatne : pat ≠ []) (hcol : LettersCol col) (hcolne : col ≠ [])
    (hcanon : WordsCol canon) :
    ∀ n (s : List Char), s.length ≤ n → ∀ prev : Option Char,
      hasMatchB true pat prev (replaceColGo true col canon prev s) = true →
      hasMatchB true pat prev s = true := by
  intro n
  induction n with
  | zero =>
    intro s h prev hmb
    have : s = [] := List.eq_nil_of_length_eq_zero (Nat.le_zero.mp h)
    subst this; simpa [replaceColGo_nil, hasMatchB] using hmb
  | succ n ih =>
    intro s h prev hmb
    cases s with
    | nil => simpa [replaceColGo_nil, hasMatchB] using hmb
    | cons c cs =>
      simp only [List.length_cons] at h
      by_cases hm : canMatch true col prev (c :: cs) = true
      · rw [replaceColGo_cons_match hm, List.cons_append] at hmb
        obtain ⟨w, hw, hword⟩ := match_prev_word hcol hcolne hm
        simp only [hasMatchB, Bool.or_eq_true] at hmb
        rcases hmb with hmb | hmb
        · rw [canMatch] at hmb
          rw [startsPat_dq_head hpat hpatne] at hmb
          simp at hmb
        · rw [hw, hasMatchB_words_dq hcanon preOk_some_dq,
            hasMatchB_congr_prev preOk_some_dq (preOk_some_word hword)] at hmb
          have hlen : (cs.drop (col.length - 1)).length ≤ n := by
            rw [List.length_drop]; omega
          have h2 := ih _ hlen _ hmb
          rw [← hw, @rest_drop_eq c _ _ hcolne] at h2
          exact hasMatchB_drop_lift col.length h2
      · have hgo : replaceColGo true col canon prev (c :: cs) =
            c :: replaceColGo true col canon (some c) cs :=
          replaceColGo_cons_else (by simpa using hm)
        rw [hgo] at hmb
        simp only [hasMatchB, Bool.or_eq_true] at hmb ⊢
        rcases hmb with hmb | hmb
        · rw [← hgo] at hmb
          exact Or.inl (canMatch_go hpat hmb)
        · exact Or.inr (ih cs (by omega) (some c) hmb)

/-- The scanner preserves the absence of adjacent double quotes. -/
theorem NoDq_go {col canon : List Char} (hcol : LettersCol col) (hne : col ≠ [])
    (hcanon : WordsCol canon) (hcne : canon ≠ []) :
    ∀ n (s : List Char), s.length ≤ n → ∀ prev : Option Char, NoDq s →
      NoDq (replaceColGo true col canon prev s) := by
  intro n
  induction n with
  | zero =>
    intro s h prev _
    have : s = [] := List.eq_nil_of_length_eq_zero (Nat.le_zero.mp h)
    subst this; exact List.chain'_nil
  | succ n ih =>
    intro s h prev hs
    cases s with
    | nil => exact List.chain'_nil
    | cons c cs =>
      simp only [List.length_cons] at h
      by_cases hm : canMatch true col prev (c :: cs) = true
      · rw [replaceColGo_cons_match hm, List.cons_append]
        obtain ⟨w, hw, hword⟩ := match_prev_word hcol hne hm
        obtain ⟨-, -, hpost⟩ := canMatch_parts hm
        rw [NoDq, List.chain'_cons']
        have hrest : NoDq (cs.drop (col.length - 1)) := by
          rw [NoDq]
          exact (List.Chain'.drop hs.tail_of_cons _)
        have hlen : (cs.drop (col.length - 1)).length ≤ n := by
          rw [List.length_drop]; omega
        have hout : NoDq (replaceColGo true col canon
            (scanPrev prev ((c :: cs).take col.length)) (cs.drop (col.length - 1))) := by
          exact ih _ hlen _ hrest
        constructor
        · intro y hy hz
          cases canon with
          | nil => exact absurd rfl hcne
          | cons k ks =>
            simp only [List.cons_append, List.head?_cons, Option.mem_def, Option.some.injEq] at hy
            subst hy
            exact ne_dq_of_isWordC (hcanon k (by simp)) hz.2
        · rw [List.chain'_append]
          refine ⟨?_, ?_, ?_⟩
          · exact NoDq_of_all_ne fun x hx => ne_dq_of_isWordC (hcanon x hx)
          · rw [List.chain'_cons']
            constructor
            · intro y hy hz
              rw [hw] at hy
              rw [replaceColGo_head?_else
                (canMatch_false_of_preOk (preOk_some_word hword))] at hy
              rw [@rest_drop_eq c _ _ hne] at hy
              cases hd : ((c :: cs).drop col.length) with
              | nil => rw [hd] at hy; simp at hy
              | cons y' t =>
                rw [hd] at hy
                simp only [List.head?_cons, Option.mem_def, Option.some.injEq] at hy
                subst hy
                rw [hd] at hpost
                exact postOk_head_ne_dq hpost hz.2
            · exact hout
          · intro x hx y hy hz
            exact ne_dq_of_isWordC (hcanon x (List.mem_of_mem_getLast? hx)) hz.1
      · rw [replaceColGo_cons_else (by simpa using hm)]
        rw [NoDq, List.chain'_cons']
        constructor
        · intro y hy hz
          cases cs with
          | nil => simp [replaceColGo_nil] at hy
          | cons x xs =>
            by_cases hm2 : canMatch true col (some c) (x :: xs) = true
            · obtain ⟨hpre, -, -⟩ := canMatch_parts hm2
              simp only [preOk, Bool.and_eq_true, bne_iff_ne] at hpre
              exact hpre.1.2 hz.1
            · rw [replaceColGo_head?_else (by simpa using hm2)] at hy
              simp only [List.head?_cons, Option.mem_def, Option.some.injEq] at hy
              subst hy
              exact (List.chain'_cons'.mp hs).1 x rfl hz
        · exact ih cs (by omega) (some c) hs.tail_of_cons

theorem replaceColGo_id {ci : Bool} {col canon : List Char} :
    ∀ {s : List Char} {prev : Option Char}, hasMatchB ci col prev s = false →
      replaceColGo ci col canon prev s = s := by
  intro s
  induction s with
  | nil => intro prev _; rfl
  | cons c cs ih =>
    intro prev h
    simp only [hasMatchB, Bool.or_eq_false_iff] at h
    rw [replaceColGo_cons_else h.1, ih h.2]

theorem hasMatchB_false_of_free {col : List Char} :
    ∀ {s : List Char} {prev : Option Char}, hasFreeOccur col prev s = false →
      hasMatchB true col prev s = false := by
  intro s
  induction s with
  | nil => intro prev _; rfl
  | cons c cs ih =>
    intro prev h
    have h' : (boundaryPre prev && startsPat true col (c :: cs) &&
        boundaryPost ((c :: cs).drop col.length)) = false ∧
        hasFreeOccur col (some c) cs = false := by
      constructor
      · by_contra hx
        rw [Bool.not_eq_false] at hx
        rw [hasFreeOccur, hx] at h
        simp at h
      · by_contra hx
        rw [Bool.not_eq_false] at hx
        rw [hasFreeOccur, hx] at h
        simp at h
    simp only [hasMatchB, Bool.or_eq_false_iff]
    refine ⟨?_, ih h'.2⟩
    by_contra hcm
    rw [Bool.not_eq_false] at hcm
    obtain ⟨hpre, hstart, hpost⟩ := canMatch_parts hcm
    have hbp : boundaryPre prev = true := by
      cases prev with
      | none => rfl
      | some x =>
        simp only [preOk, Bool.and_eq_true] at hpre
        simp [boundaryPre, hpre.1.1]
    have hbq : boundaryPost ((c :: cs).drop col.length) = true := by
      cases hd : ((c :: cs).drop col.length) with
      | nil => rfl
      | cons y t =>
        rw [hd] at hpost
        simp only [postOk, Bool.and_eq_true] at hpost
        simp [boundaryPost, hpost.1.1]
    rw [hbp, hstart, hbq] at h'
    simp at h'

/-- `fixColumnQuoting` as the composition of the three passes. -/
theorem fixColumnQuoting_eq (q : List Char) :
    fixColumnQuoting q =
      replaceColGo true "systemMessage".data "systemMessage".data none
        (replaceColGo true "createdAt".data "createdAt".data none (collapseQuotes q)) := by
  rfl

/-- C4: the Column-Identifier Normalizer is idempotent: for every string
`x`, `fixColumnQuoting (fixColumnQuoting x) = fixColumnQuoting x`. -/
theorem C4_normalizer_idempotent (x : List Char) :
    fixColumnQuoting (fixColumnQuoting x) = fixColumnQuoting x := by
  have hc1 : LettersCol "createdAt".data := by decide
  have hc2 : LettersCol "systemMessage".data := by decide
  have hw1 : WordsCol "createdAt".data := by decide
  have hw2 : WordsCol "systemMessage".data := by decide
  have hne1 : "createdAt".data ≠ [] := by decide
  have hne2 : "systemMessage".data ≠ [] := by decide
  set y := fixColumnQuoting x with hy
  have hnodq : NoDq y := by
    rw [hy, fixColumnQuoting_eq]
    exact NoDq_go hc2 hne2 hw2 hne2 _ _ le_rfl none
      (NoDq_go hc1 hne1 hw1 hne1 _ _ le_rfl none (NoDq_collapseQuotes x))
  have hm1 : hasMatchB true "createdAt".data none y = false := by
    rw [hy, fixColumnQuoting_eq]
    by_contra hx
    rw [Bool.not_eq_false] at hx
    have h2 := hasMatchB_go_other hc1 hne1 hc2 hne2 hw2 _ _ le_rfl none hx
    have h3 := hasMatchB_go_self hc1 hw1 hne1 (collapseQuotes x).length
      (collapseQuotes x) le_rfl none
    rw [h3] at h2
    exact Bool.false_ne_true h2
  have hm2 : hasMatchB true "systemMessage".data none y = false := by
    rw [hy, fixColumnQuoting_eq]
    exact hasMatchB_go_self hc2 hw2 hne2 _ _ le_rfl none
  rw [fixColumnQuoting_eq y, collapseQuotes_of_NoDq hnodq,
    replaceColGo_id hm1, replaceColGo_id hm2]

theorem NoDq_of_noDqB : ∀ {s : List Char}, noDqB s = true → NoDq s := by
  intro s
  induction s with
  | nil => intro _; exact List.chain'_nil
  | cons a l ih =>
    cases l with
    | nil => intro _; exact List.chain'_singleton a
    | cons b t =>
      intro h
      have h1 : (!(a == dq && b == dq) && noDqB (b :: t)) = true := h
      simp only [Bool.and_eq_true, Bool.not_eq_true', Bool.and_eq_false_iff,
        beq_eq_false_iff_ne, ne_eq] at h1
      rw [NoDq, List.chain'_cons]
      refine ⟨fun hz => ?_, ih h1.2⟩
      rcases h1.1 with h2 | h2
      · exact h2 hz.1
      · exact h2 hz.2

/-- C5 (amended): `fixColumnQuoting` itself never rewrites a tracked
identifier occurrence that is flanked by a word character: on any input
without adjacent double quotes in which every case-insensitive occurrence of
`createdAt` and of `systemMessage` lacks a word boundary on one side (i.e.
occurs only inside a longer identifier), `fixColumnQuoting` is the
identity.  (The query-generation column-mapping pass, by contrast, rewrites
such occurrences; see the counterexample.) -/
theorem C5_fixColumnQuoting_respects_word_boundaries (x : List Char)
    (h1 : hasFreeOccur "createdAt".data none x = false)
    (h2 : hasFreeOccur "systemMessage".data none x = false)
    (h3 : noDqB x = true) :
    fixColumnQuoting x = x := by
  rw [fixColumnQuoting_eq, collapseQuotes_of_NoDq (NoDq_of_noDqB h3),
    replaceColGo_id (hasMatchB_false_of_free h1),
    replaceColGo_id (hasMatchB_false_of_free h2)]

theorem C5_fixColumnQuoting_respects_word_boundaries_witness :
    hasFreeOccur "createdAt".data none
        "select xcreatedaty, a_systemmessage from legalprompt".data = false ∧
    hasFreeOccur "systemMessage".data none
        "select xcreatedaty, a_systemmessage from legalprompt".data = false ∧
    noDqB "select xcreatedaty, a_systemmessage from legalprompt".data = true ∧
    fixColumnQuoting "select xcreatedaty, a_systemmessage from legalprompt".data =
      "select xcreatedaty, a_systemmessage from legalprompt".data :=
  ⟨by decide, by decide, by decide,
    C5_fixColumnQuoting_respects_word_boundaries _ (by decide) (by decide) (by decide)⟩

/-- C5 counterexample: the normalization applied by the earlier draft's
`generateQuery` (column-mapping pass followed by `fixColumnQuoting`) rewrites
the tracked identifier `createdAt` even when its occurrence is flanked by
word characters on both sides (`xcreatedaty`), contradicting the claim that
the normalization leaves such occurrences unchanged. -/
theorem C5_counterexample :
    hasFreeOccur "createdAt".data none "select xcreatedaty from legalprompt".data = false ∧
    hasFreeOccur "systemMessage".data none "select xcreatedaty from legalprompt".data = false ∧
    normalizeGeneratedQuery "select xcreatedaty from legalprompt".data =
      "select x\x22createdAt\x22y from legalprompt".data ∧
    normalizeGeneratedQuery "select xcreatedaty from legalprompt".data ≠
      "select xcreatedaty from legalprompt".data := by
  refine ⟨by decide, by decide, by decide, by decide⟩

/-- C2: for every SQL string whose trimmed, lower-cased form does not start
with `select`, the Validator rejects it with 'Only SELECT queries are
allowed', and `getLegalPrompts` throws that error without issuing any
database call. -/
theorem C2_validator_rejects_non_select (oracle : List DbCall → List Char → DbResp)
    (q : List Char) (h : "select".data.isPrefixOf (jsTrim (lowerL q)) = false) :
    validateQuery q = ⟨false, some "Only SELECT queries are allowed"⟩ ∧
    getLegalPrompts oracle q = (Except.error "Only SELECT queries are allowed", []) := by
  have hv : validateQuery q = ⟨false, some "Only SELECT queries are allowed"⟩ := by
    simp only [validateQuery, h]
    rfl
  refine ⟨hv, ?_⟩
  simp only [getLegalPrompts, hv]
  rfl

theorem C2_validator_rejects_non_select_witness :
    "select".data.isPrefixOf (jsTrim (lowerL "DROP TABLE legalprompt".data)) = false ∧
    validateQuery "DROP TABLE legalprompt".data =
      ⟨false, some "Only SELECT queries are allowed"⟩ ∧
    getLegalPrompts (fun _ _ => DbResp.ok []) "DROP TABLE legalprompt".data =
      (Except.error "Only SELECT queries are allowed", []) :=
  ⟨by decide,
    (C2_validator_rejects_non_select (fun _ _ => DbResp.ok []) _ (by decide)).1,
    (C2_validator_rejects_non_select (fun _ _ => DbResp.ok []) _ (by decide)).2⟩

/-- C3 (amended): every SQL string containing a forbidden keyword
(case-insensitively) is rejected by the Validator; when additionally its
trimmed lower-cased form starts with `select`, the failure reason names a
matched keyword (`Query contains forbidden keyword: <kw>` for some forbidden
keyword `kw` actually contained).  When it does not start with `select`, the
rejection message is the rule-1 message, which names no keyword. -/
theorem C3_forbidden_keyword_rejection (q : List Char) (kw : String)
    (hkw : kw ∈ FORBIDDEN_KEYWORDS)
    (hc : containsL kw.data (jsTrim (lowerL q)) = true) :
    (validateQuery q).isValid = false ∧
    ("select".data.isPrefixOf (jsTrim (lowerL q)) = true →
      ∃ kw', kw' ∈ FORBIDDEN_KEYWORDS ∧ containsL kw'.data (jsTrim (lowerL q)) = true ∧
        (validateQuery q).error = some ("Query contains forbidden keyword: " ++ kw')) := by
  by_cases hsel : "select".data.isPrefixOf (jsTrim (lowerL q)) = true
  · have hfind : (FORBIDDEN_KEYWORDS.find?
        (fun keyword => containsL keyword.data (jsTrim (lowerL q)))).isSome := by
      rw [List.find?_isSome]
      exact ⟨kw, hkw, hc⟩
    obtain ⟨kw', heq⟩ := Option.isSome_iff_exists.mp hfind
    have hv : validateQuery q = ⟨false, some ("Query contains forbidden keyword: " ++ kw')⟩ := by
      simp only [validateQuery, hsel, Bool.not_true, heq]
      rfl
    refine ⟨by rw [hv], fun _ => ⟨kw', List.mem_of_find?_eq_some heq,
      by simpa using List.find?_some heq, by rw [hv]⟩⟩
  · have hx : "select".data.isPrefixOf (jsTrim (lowerL q)) = false := by
      revert hsel
      cases "select".data.isPrefixOf (jsTrim (lowerL q)) <;> simp
    have hv : validateQuery q = ⟨false, some "Only SELECT queries are allowed"⟩ := by
      simp only [validateQuery, hx]
      rfl
    exact ⟨by rw [hv], fun h => absurd h hsel⟩

theorem C3_forbidden_keyword_rejection_witness :
    "drop" ∈ FORBIDDEN_KEYWORDS ∧
    containsL "drop".data (jsTrim (lowerL "select * from t where a = 0 or drop1 = 1".data)) = true ∧
    (validateQuery "select * from t where a = 0 or drop1 = 1".data).isValid = false ∧
    (validateQuery "select * from t where a = 0 or drop1 = 1".data).error =
      some ("Query contains forbidden keyword: " ++ "drop") := by
  have h := C3_forbidden_keyword_rejection "select * from t where a = 0 or drop1 = 1".data
    "drop" (by decide) (by decide)
  refine ⟨by decide, by decide, h.1, ?_⟩
  obtain ⟨kw', hmem, hcont, herr⟩ := h.2 (by decide)
  rw [herr]
  have : kw' = "drop" := by
    fin_cases hmem <;> first | rfl | (exfalso; revert hcont; decide)
  rw [this]

/-- C3 counterexample: a string containing the forbidden keyword `drop`
whose rejection reason does not name any forbidden keyword — the claim "the
failure reason names the matched keyword" fails on inputs that do not start
with `select`, because rule 1 fires first. -/
theorem C3_counterexample :
    containsL "drop".data (jsTrim (lowerL "drop table legalprompt".data)) = true ∧
    validateQuery "drop table legalprompt".data =
      ⟨false, some "Only SELECT queries are allowed"⟩ ∧
    FORBIDDEN_KEYWORDS.all
      (fun kw => !(containsL kw.data "Only SELECT queries are allowed".data)) = true := by
  refine ⟨by decide, by decide, by decide⟩

/-- C7: on an empty row sequence the Chart-Config Generator fails
immediately with the no-data error and never invokes the external
structured-generation service (service-called flag is `false`). -/
theorem C7_chart_empty_rows (svc : Except String Config) (userQuery : String) :
    generateChartConfig svc [] userQuery =
      (Except.error "No data available for visualization", false) := rfl

/-- C8: on every successful chart generation, the returned config has
`legend = true` exactly when `yKeys` has more than one element, regardless
of the legend value the external service proposed. -/
theorem C8_legend_override (cfg : Config) (r : ResultRow) (rs : List ResultRow)
    (userQuery : String) (out : Config)
    (h : (generateChartConfig (Except.ok cfg) (r :: rs) userQuery).1 = Except.ok out) :
    out.legend = some (decide (1 < cfg.yKeys.length)) := by
  simp only [generateChartConfig] at h
  rw [if_neg (by simp)] at h
  by_cases hy : (cfg.yKeys.length == 0) = true
  · rw [if_pos hy] at h
    exact absurd h (by simp)
  · rw [if_neg hy] at h
    simp only [Except.ok.injEq] at h
    rw [← h]

theorem C8_legend_override_witness :
    (generateChartConfig (Except.ok ⟨"bar", "month", ["sales", "profit"], none, some false, none, none⟩)
        ([("month", "1"), ("sales", "2"), ("profit", "3")] :: []) "q").1 =
      Except.ok ⟨"bar", "month", ["sales", "profit"],
        some [("sales", "hsl(var(--chart-1))"), ("profit", "hsl(var(--chart-2))")],
        some true, none, none⟩ ∧
    (⟨"bar", "month", ["sales", "profit"],
        some [("sales", "hsl(var(--chart-1))"), ("profit", "hsl(var(--chart-2))")],
        some true, none, none⟩ : Config).legend = some (decide (1 < (2 : Nat))) ∧
    (generateChartConfig (Except.ok ⟨"pie", "month", ["sales"], none, some true, none, none⟩)
        ([("month", "1"), ("sales", "2")] :: []) "q").1 =
      Except.ok ⟨"pie", "month", ["sales"],
        some [("sales", "hsl(var(--chart-1))")], some false, none, none⟩ ∧
    (⟨"pie", "month", ["sales"], some [("sales", "hsl(var(--chart-1))")],
        some false, none, none⟩ : Config).legend = some (decide (1 < (1 : Nat))) :=
  by
  have h1 := C8_legend_override ⟨"bar", "month", ["sales", "profit"], none, some false, none, none⟩
    [("month", "1"), ("sales", "2"), ("profit", "3")] [] "q"
    ⟨"bar", "month", ["sales", "profit"],
      some [("sales", "hsl(var(--chart-1))"), ("profit", "hsl(var(--chart-2))")],
      some true, none, none⟩ (by rfl)
  have h2 := C8_legend_override ⟨"pie", "month", ["sales"], none, some true, none, none⟩
    [("month", "1"), ("sales", "2")] [] "q"
    ⟨"pie", "month", ["sales"], some [("sales", "hsl(var(--chart-1))")],
      some false, none, none⟩ (by rfl)
  exact ⟨by rfl, h1, by rfl, h2⟩

/-- C9: on every successful chart generation, the series key at index `i` of
`yKeys` is paired with the palette entry at index `i mod 12` of the bounded
12-colour palette, for every index. -/
theorem C9_colors_cycle_palette (cfg : Config) (r : ResultRow) (rs : List ResultRow)
    (userQuery : String) (out : Config)
    (h : (generateChartConfig (Except.ok cfg) (r :: rs) userQuery).1 = Except.ok out)
    (i : Nat) (hi : i < cfg.yKeys.length) :
    ∃ colors k color, out.colors = some colors ∧
      cfg.yKeys[i]? = some k ∧
      chartPalette[i % 12]? = some color ∧
      colors[i]? = some (k, color) := by
  simp only [generateChartConfig] at h
  rw [if_neg (by simp)] at h
  by_cases hy : (cfg.yKeys.length == 0) = true
  · rw [if_pos hy] at h
    exact absurd h (by simp)
  · rw [if_neg hy] at h
    simp only [Except.ok.injEq] at h
    obtain ⟨k, hk⟩ : ∃ k, cfg.yKeys[i]? = some k :=
      ⟨cfg.yKeys[i], List.getElem?_eq_some_iff.mpr ⟨hi, rfl⟩⟩
    refine ⟨cfg.yKeys.enum.map
        (fun p => (p.2, "hsl(var(--chart-" ++ toString (p.1 % 12 + 1) ++ "))")),
      k, "hsl(var(--chart-" ++ toString (i % 12 + 1) ++ "))", ?_, hk, ?_, ?_⟩
    · rw [← h]
    · have h12 : i % 12 < 12 := Nat.mod_lt _ (by omega)
      simp only [chartPalette, List.getElem?_map, List.getElem?_range h12, Option.map_some']
    · simp only [List.enum, List.getElem?_map, List.getElem?_enumFrom, hk,
        Option.map_some', Nat.zero_add]

theorem C9_colors_cycle_palette_witness :
    ∃ out colors k color,
      (generateChartConfig
          (Except.ok ⟨"line", "x", ["a", "b", "c", "d", "e", "f", "g", "h", "i", "j", "k", "l", "m"],
            none, none, none, none⟩)
          ([("x", "1"), ("a", "2")] :: []) "q").1 = Except.ok out ∧
      out.colors = some colors ∧
      (["a", "b", "c", "d", "e", "f", "g", "h", "i", "j", "k", "l", "m"] : List String)[12]? = some k ∧
      chartPalette[12 % 12]? = some color ∧
      colors[12]? = some (k, color) := by
  obtain ⟨colors, k, color, h1, h2, h3, h4⟩ :=
    C9_colors_cycle_palette
      ⟨"line", "x", ["a", "b", "c", "d", "e", "f", "g", "h", "i", "j", "k", "l", "m"],
        none, none, none, none⟩
      [("x", "1"), ("a", "2")] [] "q" _ rfl 12 (by decide)
  exact ⟨_, colors, k, color, rfl, h1, h2, h3, h4⟩

set_option maxRecDepth 8000 in
/-- C6: when the validated query's execution fails with `42P01` (relation
does not exist), the Executor issues the fixed `CREATE TABLE legalprompt`
statement and the seed insert (whose `VALUES` list has exactly 3 rows:
`seedValues.length = 3`, and exactly 3 value tuples occur in the SQL text),
then retries the same sanitized query exactly once (the attempt call appears
exactly twice in the trace); if the retry succeeds its rows are returned,
and if the retry fails the error is surfaced as a mapped database error with
no further call. -/
theorem C6_table_autocreate_retry_once
    (oracle : List DbCall → List Char → DbResp) (q sq : List Char)
    (hsq : sq = fixColumnQuoting (sanitizeSQL q))
    (hval : (validateQuery q).isValid = true)
    (h1 : oracle [] sq = DbResp.err "42P01")
    (rc rs : List ResultRow)
    (h2 : oracle [DbCall.attempt sq] createTableQuery.data = DbResp.ok rc)
    (h3 : oracle [DbCall.attempt sq, DbCall.admin createTableQuery.data]
      seedQuery.data = DbResp.ok rs) :
    (getLegalPrompts oracle q).2 =
      [DbCall.attempt sq, DbCall.admin createTableQuery.data,
        DbCall.admin seedQuery.data, DbCall.attempt sq] ∧
    (getLegalPrompts oracle q).2.countP (fun c => c == DbCall.attempt sq) = 2 ∧
    seedValues.length = 3 ∧
    countOccur "(\x27".data seedQuery.data = 3 ∧
    (∀ rows, oracle [DbCall.attempt sq, DbCall.admin createTableQuery.data,
        DbCall.admin seedQuery.data] sq = DbResp.ok rows →
      (getLegalPrompts oracle q).1 = Except.ok rows) ∧
    (∀ c, oracle [DbCall.attempt sq, DbCall.admin createTableQuery.data,
        DbCall.admin seedQuery.data] sq = DbResp.err c →
      (getLegalPrompts oracle q).1 = Except.error (handlePostgresErrorMsg c)) := by
  subst hsq
  have hG : getLegalPrompts oracle q =
      match oracle [DbCall.attempt (fixColumnQuoting (sanitizeSQL q)),
          DbCall.admin createTableQuery.data, DbCall.admin seedQuery.data]
          (fixColumnQuoting (sanitizeSQL q)) with
      | DbResp.ok rows => (Except.ok rows,
          [DbCall.attempt (fixColumnQuoting (sanitizeSQL q)),
            DbCall.admin createTableQuery.data, DbCall.admin seedQuery.data,
            DbCall.attempt (fixColumnQuoting (sanitizeSQL q))])
      | DbResp.err c => (Except.error (handlePostgresErrorMsg c),
          [DbCall.attempt (fixColumnQuoting (sanitizeSQL q)),
            DbCall.admin createTableQuery.data, DbCall.admin seedQuery.data,
            DbCall.attempt (fixColumnQuoting (sanitizeSQL q))]) := by
    simp only [getLegalPrompts, hval, Bool.not_true, Bool.false_eq_true, if_false,
      List.cons_append, List.nil_append, h1, h2, h3]
    rfl
  refine ⟨?_, ?_, rfl, by decide, ?_, ?_⟩
  · cases ho : oracle [DbCall.attempt (fixColumnQuoting (sanitizeSQL q)),
        DbCall.admin createTableQuery.data, DbCall.admin seedQuery.data]
        (fixColumnQuoting (sanitizeSQL q)) <;> rw [hG, ho]
  · cases ho : oracle [DbCall.attempt (fixColumnQuoting (sanitizeSQL q)),
        DbCall.admin createTableQuery.data, DbCall.admin seedQuery.data]
        (fixColumnQuoting (sanitizeSQL q)) <;>
      rw [hG, ho] <;> simp [List.countP_cons]
  · intro rows ho
    rw [hG, ho]
  · intro c ho
    rw [hG, ho]

set_option maxRecDepth 8000 in
theorem C6_table_autocreate_retry_once_witness :
    (validateQuery "select * from legalprompt".data).isValid = true ∧
    (getLegalPrompts
        (fun hist _ => if hist.length == 0 then DbResp.err "42P01" else DbResp.ok [])
        "select * from legalprompt".data).2 =
      [DbCall.attempt (fixColumnQuoting (sanitizeSQL "select * from legalprompt".data)),
        DbCall.admin createTableQuery.data, DbCall.admin seedQuery.data,
        DbCall.attempt (fixColumnQuoting (sanitizeSQL "select * from legalprompt".data))] ∧
    (getLegalPrompts
        (fun hist _ => if hist.length == 0 then DbResp.err "42P01" else DbResp.ok [])
        "select * from legalprompt".data).1 = Except.ok [] := by
  have h := C6_table_autocreate_retry_once
    (fun hist _ => if hist.length == 0 then DbResp.err "42P01" else DbResp.ok [])
    "select * from legalprompt".data _ rfl (by decide) rfl [] [] rfl rfl
  exact ⟨by decide, h.1, h.2.2.2.2.1 [] rfl⟩

/-! ### Semicolon-freeness of `sanitizeSQL` -/

theorem semi_not_mem_removeSemis :
    ∀ fuel (s : List Char), s.length ≤ fuel →
      ';' ∉ replaceAllAux false ";".data "".data fuel s := by
  intro fuel
  induction fuel with
  | zero =>
    intro s h
    have : s = [] := List.eq_nil_of_length_eq_zero (Nat.le_zero.mp h)
    subst this
    simp [replaceAllAux]
  | succ n ih =>
    intro s h
    cases s with
    | nil => simp [replaceAllAux]
    | cons c cs =>
      simp only [List.length_cons] at h
      by_cases hc : startsPat false ";".data (c :: cs) = true
      · have : replaceAllAux false ";".data "".data (n + 1) (c :: cs) =
            replaceAllAux false ";".data "".data n cs := by
          simp only [replaceAllAux, if_pos hc]
          rfl
        rw [this]
        exact ih cs (by omega)
      · have hcne : c ≠ ';' := by
          intro he
          subst he
          exact hc rfl
        have : replaceAllAux false ";".data "".data (n + 1) (c :: cs) =
            c :: replaceAllAux false ";".data "".data n cs := by
          simp only [replaceAllAux, if_neg hc]
        rw [this]
        intro hm
        rcases List.mem_cons.mp hm with he | hm2
        · exact hcne he.symm
        · exact ih cs (by omega) hm2

theorem findClose_suffix : ∀ (s r : List Char), findClose s = some r → r <:+ s := by
  intro s
  induction s with
  | nil => intro r h; simp [findClose] at h
  | cons a t ih =>
    cases t with
    | nil => intro r h; simp [findClose] at h
    | cons b rest =>
      intro r h
      rw [findClose] at h
      by_cases hab : (a == '*' && b == '/') = true
      · rw [if_pos hab] at h
        obtain rfl : rest = r := by simpa using h
        exact (List.suffix_cons b rest).trans (List.suffix_cons a (b :: rest))
      · rw [if_neg hab] at h
        exact (ih r h).trans (List.suffix_cons a (b :: rest))

theorem mem_removeBCAux :
    ∀ fuel (s : List Char) (c : Char), c ∈ removeBCAux fuel s → c ∈ s := by
  intro fuel
  induction fuel with
  | zero => intro s c h; exact h
  | succ n ih =>
    intro s c h
    match s with
    | [] => exact h
    | [x] => exact h
    | a :: b :: rest =>
      rw [removeBCAux] at h
      by_cases hab : (a == '/' && b == '*') = true
      · rw [if_pos hab] at h
        cases hf : findClose rest with
        | some r =>
          rw [hf] at h
          have := ih r c h
          have hsuf : r <:+ rest := findClose_suffix rest r hf
          exact List.mem_cons_of_mem a (List.mem_cons_of_mem b (hsuf.sublist.mem this))
        | none =>
          rw [hf] at h
          rcases List.mem_cons.mp h with he | h2
          · exact he ▸ List.mem_cons_self a _
          · exact List.mem_cons_of_mem a (ih (b :: rest) c h2)
      · rw [if_neg hab] at h
        rcases List.mem_cons.mp h with he | h2
        · exact he ▸ List.mem_cons_self a _
        · exact List.mem_cons_of_mem a (ih (b :: rest) c h2)

theorem mem_jsTrim {c : Char} {s : List Char} (h : c ∈ jsTrim s) : c ∈ s := by
  unfold jsTrim at h
  rw [List.mem_reverse] at h
  have h2 := (List.dropWhile_suffix isWSC).sublist.mem h
  rw [List.mem_reverse] at h2
  exact (List.dropWhile_suffix isWSC).sublist.mem h2

/-- C10 (amended): the output of `sanitizeSQL` never contains a semicolon
(the `;` removal pass deletes them all and the later passes only delete
characters); the `--` and `/*` parts of the claim are false, see the
counterexample. -/
theorem C10_sanitize_no_semicolon (q : List Char) :
    List.elem ';' (sanitizeSQL q) = false := by
  by_contra hx
  rw [Bool.not_eq_false, List.elem_iff] at hx
  have h1 := mem_jsTrim hx
  have h2 := mem_removeBCAux _ _ _ h1
  exact semi_not_mem_removeSemis _ _ le_rfl h2

/-- C10 counterexample: removing `;` can join two hyphens into `--`, and can
join `/` and `*` into `/*`: `sanitizeSQL` output can contain both of the
comment-marker substrings the claim rules out. -/
theorem C10_counterexample :
    sanitizeSQL "-;-".data = "--".data ∧
    containsL "--".data (sanitizeSQL "-;-".data) = true ∧
    sanitizeSQL "/;*".data = "/*".data ∧
    containsL "/*".data (sanitizeSQL "/;*".data) = true := by
  refine ⟨by decide, by decide, by decide, by decide⟩

/-! ### Containment bridges and whitespace lemmas -/

theorem startsPat_false_eq (pat : List Char) :
    ∀ s, startsPat false pat s = pat.isPrefixOf s := by
  induction pat with
  | nil => intro s; cases s <;> rfl
  | cons p ps ih =>
    intro s
    cases s with
    | nil => rfl
    | cons c cs => simp [startsPat, charMatches, List.isPrefixOf, ih]

theorem containsL_iff (pat : List Char) : ∀ s, containsL pat s = true ↔ pat <:+: s := by
  intro s
  induction s with
  | nil =>
    simp only [containsL, List.isEmpty_iff, List.infix_nil]
  | cons c cs ih =>
    simp only [containsL, Bool.or_eq_true, List.isPrefixOf_iff_prefix, ih,
      List.infix_cons_iff]

theorem singleton_infix_iff (c : Char) (s : List Char) : [c] <:+: s ↔ c ∈ s := by
  constructor
  · intro h
    exact h.subset (by simp)
  · intro h
    obtain ⟨u, v, rfl⟩ := List.append_of_mem h
    exact ⟨u, v, by simp⟩

theorem prefix_stop_all_bad (bad : Char → Bool) :
    ∀ (pat : List Char), (∀ c ∈ pat, bad c = false) →
      ∀ (u w : List Char), (∀ c ∈ w, bad c = true) → pat <+: u ++ w → pat <+: u := by
  intro pat
  induction pat with
  | nil => intro _ u w _ _; exact List.nil_prefix
  | cons p pt ih =>
    intro hp u w hw h
    cases u with
    | nil =>
      rw [List.nil_append] at h
      have hmem : p ∈ w := h.sublist.subset (by simp)
      have h1 := hw p hmem
      have h2 := hp p (by simp)
      rw [h1] at h2
      exact absurd h2 (by simp)
    | cons x u' =>
      rw [List.cons_append] at h
      rw [List.cons_prefix_cons] at h
      rw [h.1]
      rw [List.cons_prefix_cons]
      refine ⟨rfl, ih (fun q hq => hp q (by simp [hq])) u' w hw h.2⟩

theorem infix_right_of_left_bad (bad : Char → Bool) (pat : List Char)
    (hpat : ∀ c ∈ pat, bad c = false) (hne : pat ≠ []) :
    ∀ (u v : List Char), (∀ c ∈ u, bad c = true) → pat <:+: u ++ v → pat <:+: v := by
  intro u
  induction u with
  | nil => intro v _ h; exact h
  | cons x u' ih =>
    intro v hu h
    rw [List.cons_append, List.infix_cons_iff] at h
    rcases h with h | h
    · cases pat with
      | nil => exact absurd rfl hne
      | cons p pt =>
        rw [List.cons_prefix_cons] at h
        have h1 := hu x (by simp)
        have h2 := hpat p (by simp)
        rw [h.1, h1] at h2
        exact absurd h2 (by simp)
    · exact ih v (fun q hq => hu q (by simp [hq])) h

theorem infix_left_of_right_bad (bad : Char → Bool) (pat : List Char)
    (hpat : ∀ c ∈ pat, bad c = false) (hne : pat ≠ [])
    (u w : List Char) (hw : ∀ c ∈ w, bad c = true) (h : pat <:+: u ++ w) : pat <:+: u := by
  rw [← List.reverse_infix, List.reverse_append] at h
  have h2 := infix_right_of_left_bad bad pat.reverse
    (fun c hc => hpat c (List.mem_reverse.mp hc)) (by simpa using hne)
    w.reverse u.reverse (fun c hc => hw c (List.mem_reverse.mp hc)) h
  rw [List.reverse_infix] at h2
  exact h2

theorem jsTrim_decomp (s : List Char) :
    ∃ a b, s = a ++ jsTrim s ++ b ∧ (∀ c ∈ a, isWSC c = true) ∧ (∀ c ∈ b, isWSC c = true) := by
  refine ⟨s.takeWhile isWSC, ((s.dropWhile isWSC).reverse.takeWhile isWSC).reverse, ?_, ?_, ?_⟩
  · conv_lhs => rw [← List.takeWhile_append_dropWhile isWSC s]
    rw [List.append_assoc]
    congr 1
    conv_lhs => rw [← List.reverse_reverse (s.dropWhile isWSC),
      ← List.takeWhile_append_dropWhile isWSC (s.dropWhile isWSC).reverse]
    rw [List.reverse_append]
    rfl
  · intro c hc; exact List.mem_takeWhile_imp hc
  · intro c hc; rw [List.mem_reverse] at hc; exact List.mem_takeWhile_imp hc

theorem jsTrim_isInfix (s : List Char) : jsTrim s <:+: s := by
  obtain ⟨a, b, hs, -, -⟩ := jsTrim_decomp s
  exact ⟨a, b, hs.symm⟩

theorem infix_jsTrim_of_noWS (pat : List Char) (hpat : ∀ c ∈ pat, isWSC c = false)
    (hne : pat ≠ []) (s : List Char) (h : pat <:+: s) : pat <:+: jsTrim s := by
  obtain ⟨a, b, hs, ha, hb⟩ := jsTrim_decomp s
  rw [hs] at h
  have h1 := infix_left_of_right_bad isWSC pat hpat hne (a ++ jsTrim s) b hb h
  exact infix_right_of_left_bad isWSC pat hpat hne a (jsTrim s) ha h1

theorem lowerL_jsTrim (s : List Char) : lowerL (jsTrim s) = jsTrim (lowerL s) := by
  have hfun : (isWSC ∘ Char.toLower) = isWSC := funext isWSC_toLower
  simp only [jsTrim, lowerL]
  rw [List.dropWhile_map, hfun, ← List.map_reverse, List.dropWhile_map, hfun,
    ← List.map_reverse]

theorem replaceAll_id (pat repl : List Char) :
    ∀ (s : List Char), containsL pat s = false →
      ∀ fuel, replaceAllAux false pat repl fuel s = s := by
  intro s
  induction s with
  | nil => intro _ fuel; cases fuel <;> rfl
  | cons c cs ih =>
    intro h fuel
    have h1 : pat.isPrefixOf (c :: cs) = false := by
      by_contra hx
      rw [Bool.not_eq_false] at hx
      rw [containsL, hx] at h
      simp at h
    have h2 : containsL pat cs = false := by
      by_contra hx
      rw [Bool.not_eq_false] at hx
      rw [containsL, hx] at h
      simp at h
    cases fuel with
    | zero => rfl
    | succ n =>
      rw [replaceAllAux, if_neg (by rw [startsPat_false_eq, h1]; exact Bool.false_ne_true)]
      rw [ih h2 n]

theorem removeBC_id :
    ∀ (s : List Char), containsL "/*".data s = false → ∀ fuel, removeBCAux fuel s = s := by
  intro s
  induction s with
  | nil => intro _ fuel; cases fuel <;> rfl
  | cons a t ih =>
    intro h fuel
    cases fuel with
    | zero => rfl
    | succ n =>
      cases t with
      | nil => rfl
      | cons b rest =>
        have h1 : "/*".data.isPrefixOf (a :: b :: rest) = false := by
          by_contra hx
          rw [Bool.not_eq_false] at hx
          rw [containsL, hx] at h
          simp at h
        have h2 : containsL "/*".data (b :: rest) = false := by
          by_contra hx
          rw [Bool.not_eq_false] at hx
          rw [containsL, hx] at h
          simp at h
        have hop : ¬((a == '/' && b == '*') = true) := by
          intro hx
          simp only [Bool.and_eq_true, beq_iff_eq] at hx
          rw [hx.1, hx.2] at h1
          have ht : "/*".data.isPrefixOf ('/' :: '*' :: rest) = true := by
            simp [show "/*".data = ['/', '*'] from rfl, List.isPrefixOf]
          rw [ht] at h1
          simp at h1
        rw [removeBCAux, if_neg hop, ih h2 n]

theorem containsL_singleton_false {c : Char} {s : List Char} (h : c ∉ s) :
    containsL [c] s = false := by
  by_contra hx
  rw [Bool.not_eq_false, containsL_iff, singleton_infix_iff] at hx
  exact h hx

/-- When the query contains none of `--`, `;`, `/*`, sanitizing is just
trimming. -/
theorem sanitizeSQL_eq_jsTrim (q : List Char)
    (hdd : containsL "--".data q = false)
    (hsc : ';' ∉ q)
    (hbc : containsL "/*".data q = false) :
    sanitizeSQL q = jsTrim q := by
  unfold sanitizeSQL replaceAllL removeBlockComments
  rw [replaceAll_id _ _ q hdd, replaceAll_id _ _ q (containsL_singleton_false hsc),
    removeBC_id q hbc]

theorem dq_toLower : dq.toLower = dq := by decide

theorem prefix_stop_sep :
    ∀ (pat : List Char), dq ∉ pat → ∀ (u v : List Char),
      pat <+: u ++ dq :: v → pat <+: u := by
  intro pat
  induction pat with
  | nil => intro _ u v _; exact List.nil_prefix
  | cons p pt ih =>
    intro hq u v h
    cases u with
    | nil =>
      rw [List.nil_append, List.cons_prefix_cons] at h
      exact absurd (h.1 ▸ List.mem_cons_self p pt) hq
    | cons x u' =>
      rw [List.cons_append, List.cons_prefix_cons] at h
      rw [h.1, List.cons_prefix_cons]
      exact ⟨rfl, ih (fun hx => hq (by simp [hx])) u' v h.2⟩

theorem infix_split_dq (pat : List Char) (hq : dq ∉ pat) :
    ∀ (u v : List Char), pat <:+: u ++ dq :: v → pat <:+: u ∨ pat <:+: v := by
  intro u
  induction u with
  | nil =>
    intro v h
    rw [List.nil_append, List.infix_cons_iff] at h
    rcases h with h | h
    · cases pat with
      | nil => exact Or.inl List.nil_infix
      | cons p pt =>
        rw [List.cons_prefix_cons] at h
        exact absurd (h.1 ▸ List.mem_cons_self p pt) hq
    · exact Or.inr h
  | cons x u' ih =>
    intro v h
    rw [List.cons_append, List.infix_cons_iff] at h
    rcases h with h | h
    · exact Or.inl (prefix_stop_sep pat hq (x :: u') v h).isInfix
    · exact (ih v h).imp List.infix_cons id

theorem prefix_lower_collapse :
    ∀ (s pat : List Char), dq ∉ pat →
      pat <+: lowerL (collapseQuotes s) → pat <+: lowerL s := by
  intro s
  induction s with
  | nil => intro pat _ h; simpa [collapseQuotes_nil] using h
  | cons c cs ih =>
    intro pat hq h
    by_cases hc : c = dq
    · subst hc
      cases pat with
      | nil => exact List.nil_prefix
      | cons p pt =>
        rw [collapseQuotes_cons_dq] at h
        simp only [lowerL, List.map_cons, dq_toLower] at h
        rw [List.cons_prefix_cons] at h
        exact absurd (h.1 ▸ List.mem_cons_self p pt) hq
    · rw [collapseQuotes_cons_ne hc] at h
      cases pat with
      | nil => exact List.nil_prefix
      | cons p pt =>
        simp only [lowerL, List.map_cons] at h ⊢
        rw [List.cons_prefix_cons] at h ⊢
        exact ⟨h.1, ih pt (fun hx => hq (by simp [hx])) h.2⟩

theorem lowerL_nil : lowerL [] = [] := rfl

theorem lowerL_cons (c : Char) (l : List Char) :
    lowerL (c :: l) = c.toLower :: lowerL l := rfl

theorem lowerL_append (a b : List Char) : lowerL (a ++ b) = lowerL a ++ lowerL b :=
  List.map_append Char.toLower a b

theorem bool_eq_false {b : Bool} (h : ¬ b = true) : b = false := by
  cases b
  · rfl
  · exact absurd rfl h

theorem infix_lower_collapse (pat : List Char) (hq : dq ∉ pat) :
    ∀ (n : Nat) (s : List Char), s.length ≤ n →
      pat <:+: lowerL (collapseQuotes s) → pat <:+: lowerL s := by
  intro n
  induction n with
  | zero =>
    intro s hlen h
    have hs : s = [] := List.eq_nil_of_length_eq_zero (Nat.le_zero.mp hlen)
    subst hs
    simpa [collapseQuotes_nil] using h
  | succ n ih =>
    intro s hlen h
    cases s with
    | nil => simpa [collapseQuotes_nil] using h
    | cons c cs =>
      simp only [List.length_cons] at hlen
      by_cases hc : c = dq
      · subst hc
        rw [collapseQuotes_cons_dq, lowerL_cons, dq_toLower] at h
        rw [List.infix_cons_iff] at h
        rcases h with h | h
        · cases pat with
          | nil => exact List.nil_infix
          | cons p pt =>
            rw [List.cons_prefix_cons] at h
            exact absurd (h.1 ▸ List.mem_cons_self p pt) hq
        · have hlen2 : (cs.dropWhile (fun x => x == dq)).length ≤ n :=
            le_trans (List.dropWhile_suffix _).sublist.length_le (by omega)
          have h2 := ih _ hlen2 h
          have h3 : lowerL (cs.dropWhile (fun x => x == dq)) <:+: lowerL cs :=
            ((List.dropWhile_suffix _).map Char.toLower).isInfix
          rw [lowerL_cons]
          exact List.infix_cons (h2.trans h3)
      · rw [collapseQuotes_cons_ne hc, lowerL_cons] at h
        rw [lowerL_cons]
        rw [List.infix_cons_iff] at h ⊢
        rcases h with h | h
        · cases pat with
          | nil => exact Or.inl List.nil_prefix
          | cons p pt =>
            rw [List.cons_prefix_cons] at h ⊢
            exact Or.inl ⟨h.1,
              prefix_lower_collapse cs pt (fun hx => hq (by simp [hx])) h.2⟩
        · exact Or.inr (ih cs (by omega) h)

theorem prefix_lower_go {ci : Bool} {col canon : List Char} :
    ∀ (n : Nat) (s : List Char), s.length ≤ n → ∀ (prev : Option Char) (pat : List Char),
      dq ∉ pat → pat <+: lowerL (replaceColGo ci col canon prev s) → pat <+: lowerL s := by
  intro n
  induction n with
  | zero =>
    intro s hlen prev pat hq h
    have hs : s = [] := List.eq_nil_of_length_eq_zero (Nat.le_zero.mp hlen)
    subst hs
    simpa [replaceColGo_nil] using h
  | succ n ih =>
    intro s hlen prev pat hq h
    cases s with
    | nil => simpa [replaceColGo_nil] using h
    | cons c cs =>
      simp only [List.length_cons] at hlen
      by_cases hm : canMatch ci col prev (c :: cs) = true
      · rw [replaceColGo_cons_match hm, List.cons_append, lowerL_cons, dq_toLower] at h
        cases pat with
        | nil => exact List.nil_prefix
        | cons p pt =>
          rw [List.cons_prefix_cons] at h
          exact absurd (h.1 ▸ List.mem_cons_self p pt) hq
      · rw [replaceColGo_cons_else (bool_eq_false hm), lowerL_cons] at h
        cases pat with
        | nil => exact List.nil_prefix
        | cons p pt =>
          rw [lowerL_cons, List.cons_prefix_cons]
          rw [List.cons_prefix_cons] at h
          exact ⟨h.1, ih cs (by omega) (some c) pt (fun hx => hq (by simp [hx])) h.2⟩

theorem infix_lower_go {ci : Bool} {col canon pat : List Char}
    (hq : dq ∉ pat) (hcanon : containsL pat (lowerL canon) = false) :
    ∀ (n : Nat) (s : List Char), s.length ≤ n → ∀ (prev : Option Char),
      pat <:+: lowerL (replaceColGo ci col canon prev s) → pat <:+: lowerL s := by
  have hne : pat ≠ [] := by
    intro hx
    subst hx
    cases hl : lowerL canon <;> simp [containsL, hl, List.isPrefixOf] at hcanon
  intro n
  induction n with
  | zero =>
    intro s hlen prev h
    have hs : s = [] := List.eq_nil_of_length_eq_zero (Nat.le_zero.mp hlen)
    subst hs
    simpa [replaceColGo_nil] using h
  | succ n ih =>
    intro s hlen prev h
    cases s with
    | nil => simpa [replaceColGo_nil] using h
    | cons c cs =>
      simp only [List.length_cons] at hlen
      by_cases hm : canMatch ci col prev (c :: cs) = true
      · rw [replaceColGo_cons_match hm, List.cons_append, lowerL_cons, lowerL_append,
          lowerL_cons, dq_toLower] at h
        have h1 : pat <:+: [] ++ dq ::
            (lowerL canon ++ dq :: lowerL (replaceColGo ci col canon
              (scanPrev prev ((c :: cs).take col.length)) (cs.drop (col.length - 1)))) := by
          rwa [List.nil_append]
        rcases infix_split_dq pat hq [] _ h1 with h2 | h2
        · rw [List.infix_nil] at h2
          exact absurd h2 hne
        · rcases infix_split_dq pat hq _ _ h2 with h3 | h3
          · rw [← containsL_iff] at h3
            rw [hcanon] at h3
            exact absurd h3 (by simp)
          · have hlen2 : (cs.drop (col.length - 1)).length ≤ n := by
              rw [List.length_drop]; omega
            have h4 := ih _ hlen2 _ h3
            have h5 : lowerL (cs.drop (col.length - 1)) <:+: lowerL cs :=
              ((List.drop_suffix _ _).map Char.toLower).isInfix
            rw [lowerL_cons]
            exact List.infix_cons (h4.trans h5)
      · have hm2 := bool_eq_false hm
        rw [replaceColGo_cons_else hm2, lowerL_cons] at h
        rw [List.infix_cons_iff] at h
        rcases h with h | h
        · have h2 : pat <+: lowerL (replaceColGo ci col canon prev (c :: cs)) := by
            rw [replaceColGo_cons_else hm2, lowerL_cons]
            exact h
          exact (prefix_lower_go (cs.length + 1) (c :: cs) le_rfl prev pat hq h2).isInfix
        · rw [lowerL_cons]
          exact List.infix_cons (ih cs (by omega) (some c) h)

/-- No dq-free pattern that is not an infix of a lowered canonical column name
is created by `fixColumnQuoting`: an occurrence in the lowered output comes
from an occurrence in the lowered input. -/
theorem infix_lower_fix (pat : List Char) (hq : dq ∉ pat)
    (h1 : containsL pat (lowerL "createdAt".data) = false)
    (h2 : containsL pat (lowerL "systemMessage".data) = false)
    (s : List Char) (h : pat <:+: lowerL (fixColumnQuoting s)) : pat <:+: lowerL s := by
  rw [fixColumnQuoting_eq] at h
  have h3 := infix_lower_go hq h2 _ _ le_rfl none h
  have h4 := infix_lower_go hq h1 _ _ le_rfl none h3
  exact infix_lower_collapse pat hq s.length s le_rfl h4

theorem prefix_jsTrim_append (p x : List Char) (hp : ∀ c ∈ p, isWSC c = false) :
    p <+: jsTrim (p ++ x) := by
  cases p with
  | nil => exact List.nil_prefix
  | cons d p1 =>
    obtain ⟨a, b, hs, ha, hb⟩ := jsTrim_decomp (d :: p1 ++ x)
    cases a with
    | cons e a1 =>
      exfalso
      rw [List.cons_append] at hs
      injection hs with h1 h2
      have hwe := ha e (by simp)
      have hwd := hp d (by simp)
      rw [h1, hwe] at hwd
      exact absurd hwd (by simp)
    | nil =>
      rw [List.nil_append] at hs
      have hpre : (d :: p1) <+: jsTrim (d :: p1 ++ x) ++ b := by
        rw [← hs]
        exact ⟨x, by simp⟩
      exact prefix_stop_all_bad isWSC (d :: p1) hp _ b hb hpre


theorem select_decomp (s : List Char) (h : "select".data <+: lowerL s) :
    ∃ d0 d1 d2 d3 d4 d5 t, s = d0 :: d1 :: d2 :: d3 :: d4 :: d5 :: t ∧
      d0.toLower = 's' ∧ d1.toLower = 'e' ∧ d2.toLower = 'l' ∧ d3.toLower = 'e' ∧
      d4.toLower = 'c' ∧ d5.toLower = 't' := by
  obtain ⟨r, hr⟩ := h
  rw [show "select".data = ['s', 'e', 'l', 'e', 'c', 't'] from rfl] at hr
  rcases s with _ | ⟨d0, _ | ⟨d1, _ | ⟨d2, _ | ⟨d3, _ | ⟨d4, _ | ⟨d5, t⟩⟩⟩⟩⟩⟩ <;>
    simp only [lowerL, List.map_cons, List.map_nil, List.cons_append, List.nil_append,
      List.cons.injEq, reduceCtorEq, and_false, false_and] at hr
  obtain ⟨h0, h1, h2, h3, h4, h5, -⟩ := hr
  exact ⟨d0, d1, d2, d3, d4, d5, t, rfl, h0.symm, h1.symm, h2.symm, h3.symm, h4.symm, h5.symm⟩

theorem canMatch_false_of_startsPat {ci : Bool} {col : List Char} {prev : Option Char}
    {s : List Char} (h : startsPat ci col s = false) : canMatch ci col prev s = false := by
  rw [canMatch, h, Bool.and_false, Bool.false_and]

theorem startsPat_false_head {p c : Char} {ps cs : List Char}
    (h : (p.toLower == c.toLower) = false) :
    startsPat true (p :: ps) (c :: cs) = false := by
  simp only [startsPat, charMatches, if_true, h, Bool.false_and]

theorem startsPat_false_second {p q c d : Char} {ps cs : List Char}
    (h : (q.toLower == d.toLower) = false) :
    startsPat true (p :: q :: ps) (c :: d :: cs) = false := by
  simp only [startsPat, charMatches, if_true, h, Bool.false_and, Bool.and_false]

theorem toLower_beq_false {p c x : Char} (hc : c.toLower = x)
    (hne : (p.toLower == x) = false) : (p.toLower == c.toLower) = false := by
  rw [hc]
  exact hne

theorem fix_select_prefix (d0 d1 d2 d3 d4 d5 : Char) (t : List Char)
    (h0 : d0.toLower = 's') (h1 : d1.toLower = 'e') (h2 : d2.toLower = 'l')
    (h3 : d3.toLower = 'e') (h4 : d4.toLower = 'c') (h5 : d5.toLower = 't') :
    ∃ u, fixColumnQuoting (d0 :: d1 :: d2 :: d3 :: d4 :: d5 :: t) =
      d0 :: d1 :: d2 :: d3 :: d4 :: d5 :: u := by
  have n0 : d0 ≠ dq := fun hx => by rw [hx, dq_toLower] at h0; exact absurd h0 (by decide)
  have n1 : d1 ≠ dq := fun hx => by rw [hx, dq_toLower] at h1; exact absurd h1 (by decide)
  have n2 : d2 ≠ dq := fun hx => by rw [hx, dq_toLower] at h2; exact absurd h2 (by decide)
  have n3 : d3 ≠ dq := fun hx => by rw [hx, dq_toLower] at h3; exact absurd h3 (by decide)
  have n4 : d4 ≠ dq := fun hx => by rw [hx, dq_toLower] at h4; exact absurd h4 (by decide)
  have n5 : d5 ≠ dq := fun hx => by rw [hx, dq_toLower] at h5; exact absurd h5 (by decide)
  have a0 : canMatch true "createdAt".data none
      (d0 :: d1 :: d2 :: d3 :: d4 :: d5 :: collapseQuotes t) = false :=
    canMatch_false_of_startsPat (startsPat_false_head (toLower_beq_false h0 (by decide)))
  have a1 : canMatch true "createdAt".data (some d0)
      (d1 :: d2 :: d3 :: d4 :: d5 :: collapseQuotes t) = false :=
    canMatch_false_of_startsPat (startsPat_false_head (toLower_beq_false h1 (by decide)))
  have a2 : canMatch true "createdAt".data (some d1)
      (d2 :: d3 :: d4 :: d5 :: collapseQuotes t) = false :=
    canMatch_false_of_startsPat (startsPat_false_head (toLower_beq_false h2 (by decide)))
  have a3 : canMatch true "createdAt".data (some d2)
      (d3 :: d4 :: d5 :: collapseQuotes t) = false :=
    canMatch_false_of_startsPat (startsPat_false_head (toLower_beq_false h3 (by decide)))
  have a4 : canMatch true "createdAt".data (some d3)
      (d4 :: d5 :: collapseQuotes t) = false :=
    canMatch_false_of_startsPat (startsPat_false_second (toLower_beq_false h5 (by decide)))
  have a5 : canMatch true "createdAt".data (some d4)
      (d5 :: collapseQuotes t) = false :=
    canMatch_false_of_startsPat (startsPat_false_head (toLower_beq_false h5 (by decide)))
  have b0 : canMatch true "systemMessage".data none
      (d0 :: d1 :: d2 :: d3 :: d4 :: d5 ::
        replaceColGo true "createdAt".data "createdAt".data (some d5)
          (collapseQuotes t)) = false :=
    canMatch_false_of_startsPat (startsPat_false_second (toLower_beq_false h1 (by decide)))
  have b1 : canMatch true "systemMessage".data (some d0)
      (d1 :: d2 :: d3 :: d4 :: d5 ::
        replaceColGo true "createdAt".data "createdAt".data (some d5)
          (collapseQuotes t)) = false :=
    canMatch_false_of_startsPat (startsPat_false_head (toLower_beq_false h1 (by decide)))
  have b2 : canMatch true "systemMessage".data (some d1)
      (d2 :: d3 :: d4 :: d5 ::
        replaceColGo true "createdAt".data "createdAt".data (some d5)
          (collapseQuotes t)) = false :=
    canMatch_false_of_startsPat (startsPat_false_head (toLower_beq_false h2 (by decide)))
  have b3 : canMatch true "systemMessage".data (some d2)
      (d3 :: d4 :: d5 ::
        replaceColGo true "createdAt".data "createdAt".data (some d5)
          (collapseQuotes t)) = false :=
    canMatch_false_of_startsPat (startsPat_false_head (toLower_beq_false h3 (by decide)))
  have b4 : canMatch true "systemMessage".data (some d3)
      (d4 :: d5 ::
        replaceColGo true "createdAt".data "createdAt".data (some d5)
          (collapseQuotes t)) = false :=
    canMatch_false_of_startsPat (startsPat_false_head (toLower_beq_false h4 (by decide)))
  have b5 : canMatch true "systemMessage".data (some d4)
      (d5 ::
        replaceColGo true "createdAt".data "createdAt".data (some d5)
          (collapseQuotes t)) = false :=
    canMatch_false_of_startsPat (startsPat_false_head (toLower_beq_false h5 (by decide)))
  refine ⟨replaceColGo true "systemMessage".data "systemMessage".data (some d5)
      (replaceColGo true "createdAt".data "createdAt".data (some d5) (collapseQuotes t)), ?_⟩
  rw [fixColumnQuoting_eq,
    collapseQuotes_cons_ne n0, collapseQuotes_cons_ne n1, collapseQuotes_cons_ne n2,
    collapseQuotes_cons_ne n3, collapseQuotes_cons_ne n4, collapseQuotes_cons_ne n5,
    replaceColGo_cons_else a0, replaceColGo_cons_else a1, replaceColGo_cons_else a2,
    replaceColGo_cons_else a3, replaceColGo_cons_else a4, replaceColGo_cons_else a5,
    replaceColGo_cons_else b0, replaceColGo_cons_else b1, replaceColGo_cons_else b2,
    replaceColGo_cons_else b3, replaceColGo_cons_else b4, replaceColGo_cons_else b5]

/-- The `select` word at the start of the lowered query survives
`fixColumnQuoting` followed by the validator's trim. -/
theorem fix_preserves_select (s : List Char) (h : "select".data <+: lowerL s) :
    "select".data <+: jsTrim (lowerL (fixColumnQuoting s)) := by
  obtain ⟨d0, d1, d2, d3, d4, d5, t, rfl, h0, h1, h2, h3, h4, h5⟩ := select_decomp s h
  obtain ⟨u, hu⟩ := fix_select_prefix d0 d1 d2 d3 d4 d5 t h0 h1 h2 h3 h4 h5
  rw [hu]
  have hlo : lowerL (d0 :: d1 :: d2 :: d3 :: d4 :: d5 :: u) = "select".data ++ lowerL u := by
    simp only [lowerL, List.map_cons, h0, h1, h2, h3, h4, h5]
    rfl
  rw [hlo]
  exact prefix_jsTrim_append "select".data (lowerL u) (by decide)

theorem validateQuery_true_elim (q : List Char) (h : (validateQuery q).isValid = true) :
    "select".data.isPrefixOf (jsTrim (lowerL q)) = true ∧
    (∀ kw ∈ FORBIDDEN_KEYWORDS, containsL kw.data (jsTrim (lowerL q)) = false) ∧
    (∀ p ∈ suspicious, containsL p.data (jsTrim (lowerL q)) = false) := by
  by_cases hsel : "select".data.isPrefixOf (jsTrim (lowerL q)) = true
  case neg =>
    exfalso
    rw [validateQuery] at h
    simp only [bool_eq_false hsel, Bool.not_false, if_true] at h
    exact Bool.false_ne_true h
  case pos =>
    cases hfind : FORBIDDEN_KEYWORDS.find?
        (fun keyword => containsL keyword.data (jsTrim (lowerL q))) with
    | some kw =>
      exfalso
      rw [validateQuery] at h
      simp only [hsel, Bool.not_true, Bool.false_eq_true, if_false, hfind] at h
    | none =>
      by_cases hany : suspicious.any
          (fun pat => containsL pat.data (jsTrim (lowerL q))) = true
      · exfalso
        rw [validateQuery] at h
        simp only [hsel, Bool.not_true, Bool.false_eq_true, if_false, hfind, hany,
          if_true] at h
      · refine ⟨hsel, ?_, ?_⟩
        · intro kw hkw
          by_contra hc
          rw [Bool.not_eq_false] at hc
          exact List.find?_eq_none.mp hfind kw hkw hc
        · intro p hp
          by_contra hc
          rw [Bool.not_eq_false] at hc
          exact hany (List.any_eq_true.mpr ⟨p, hp, hc⟩)

theorem validateQuery_true_intro (q : List Char)
    (hsel : "select".data.isPrefixOf (jsTrim (lowerL q)) = true)
    (hkw : ∀ kw ∈ FORBIDDEN_KEYWORDS, containsL kw.data (jsTrim (lowerL q)) = false)
    (hsp : ∀ p ∈ suspicious, containsL p.data (jsTrim (lowerL q)) = false) :
    (validateQuery q).isValid = true := by
  have hfind : FORBIDDEN_KEYWORDS.find?
      (fun keyword => containsL keyword.data (jsTrim (lowerL q))) = none := by
    rw [List.find?_eq_none]
    intro kw hk hc
    have hc2 : containsL kw.data (jsTrim (lowerL q)) = true := hc
    rw [hkw kw hk] at hc2
    exact Bool.false_ne_true hc2
  have hany : suspicious.any (fun pat => containsL pat.data (jsTrim (lowerL q))) = false := by
    by_contra hc
    rw [Bool.not_eq_false, List.any_eq_true] at hc
    obtain ⟨p, hp, hcp⟩ := hc
    have hcp2 : containsL p.data (jsTrim (lowerL q)) = true := hcp
    rw [hsp p hp] at hcp2
    exact Bool.false_ne_true hcp2
  rw [validateQuery]
  simp only [hsel, Bool.not_true, Bool.false_eq_true, if_false, hfind, hany]

/-- Every forbidden keyword and every suspicious pattern is double-quote-free
and is not an infix of either lowered canonical column name. -/
theorem pattern_side_conditions :
    ∀ p ∈ (FORBIDDEN_KEYWORDS ++ suspicious), dq ∉ p.data ∧
      containsL p.data (lowerL "createdAt".data) = false ∧
      containsL p.data (lowerL "systemMessage".data) = false := by decide

/-- A validator-accepted, semicolon-free query stays validator-accepted after
the executor's sanitization pipeline `fixColumnQuoting ∘ sanitizeSQL`. -/
theorem validator_preserved (q : List Char) (hsc : ';' ∉ q)
    (hv : (validateQuery q).isValid = true) :
    (validateQuery (fixColumnQuoting (sanitizeSQL q))).isValid = true := by
  obtain ⟨hsel, hkw, hsp⟩ := validateQuery_true_elim q hv
  have hdd : containsL "--".data q = false := by
    by_contra hc
    rw [Bool.not_eq_false, containsL_iff] at hc
    have h2 : "--".data <:+: lowerL q := by
      have h3 := hc.map Char.toLower
      rwa [show List.map Char.toLower "--".data = "--".data from by decide] at h3
    have h3 := infix_jsTrim_of_noWS "--".data (by decide) (by decide) _ h2
    have h4 : containsL "--".data (jsTrim (lowerL q)) = true := (containsL_iff _ _).mpr h3
    rw [hsp "--" (by decide)] at h4
    exact Bool.false_ne_true h4
  have hbc : containsL "/*".data q = false := by
    by_contra hc
    rw [Bool.not_eq_false, containsL_iff] at hc
    have h2 : "/*".data <:+: lowerL q := by
      have h3 := hc.map Char.toLower
      rwa [show List.map Char.toLower "/*".data = "/*".data from by decide] at h3
    have h3 := infix_jsTrim_of_noWS "/*".data (by decide) (by decide) _ h2
    have h4 : containsL "/*".data (jsTrim (lowerL q)) = true := (containsL_iff _ _).mpr h3
    rw [hsp "/*" (by decide)] at h4
    exact Bool.false_ne_true h4
  rw [sanitizeSQL_eq_jsTrim q hdd hsc hbc]
  apply validateQuery_true_intro
  · rw [List.isPrefixOf_iff_prefix]
    rw [List.isPrefixOf_iff_prefix, ← lowerL_jsTrim] at hsel
    exact fix_preserves_select (jsTrim q) hsel
  · intro kw hkw2
    obtain ⟨hdqf, hc1, hc2⟩ := pattern_side_conditions kw (List.mem_append_left _ hkw2)
    by_contra hcc
    rw [Bool.not_eq_false, containsL_iff] at hcc
    have h2 : kw.data <:+: lowerL (fixColumnQuoting (jsTrim q)) :=
      hcc.trans (jsTrim_isInfix _)
    have h3 := infix_lower_fix kw.data hdqf hc1 hc2 (jsTrim q) h2
    rw [lowerL_jsTrim] at h3
    have h4 := (containsL_iff _ _).mpr h3
    rw [hkw kw hkw2] at h4
    exact Bool.false_ne_true h4
  · intro p hp
    obtain ⟨hdqf, hc1, hc2⟩ := pattern_side_conditions p (List.mem_append_right _ hp)
    by_contra hcc
    rw [Bool.not_eq_false, containsL_iff] at hcc
    have h2 : p.data <:+: lowerL (fixColumnQuoting (jsTrim q)) :=
      hcc.trans (jsTrim_isInfix _)
    have h3 := infix_lower_fix p.data hdqf hc1 hc2 (jsTrim q) h2
    rw [lowerL_jsTrim] at h3
    have h4 := (containsL_iff _ _).mpr h3
    rw [hsp p hp] at h4
    exact Bool.false_ne_true h4

/-- Every SQL string submitted through a `sql.query(sanitizedQuery)` site of
`getLegalPrompts` (first attempt or retry) is the sanitized query. -/
theorem attempts_trace (oracle : List DbCall → List Char → DbResp) (q : List Char) :
    ∀ s, DbCall.attempt s ∈ (getLegalPrompts oracle q).2 →
      s = fixColumnQuoting (sanitizeSQL q) := by
  intro s h
  simp only [getLegalPrompts, List.singleton_append, List.cons_append,
    List.nil_append] at h
  split at h
  · simp at h
  · rcases h1 : oracle [] (fixColumnQuoting (sanitizeSQL q)) with rows | code
    · rw [h1] at h
      simp at h
      exact h
    · rw [h1] at h
      simp at h
      by_cases h2 : code = "42P01"
      · subst h2
        rw [if_pos rfl] at h
        rcases h3 : oracle [DbCall.attempt (fixColumnQuoting (sanitizeSQL q))]
            createTableQuery.data with a | c
        · rw [h3] at h
          simp at h
          rcases h4 : oracle [DbCall.attempt (fixColumnQuoting (sanitizeSQL q)),
              DbCall.admin createTableQuery.data] seedQuery.data with a2 | c2
          · rw [h4] at h
            simp at h
            rcases h5 : oracle [DbCall.attempt (fixColumnQuoting (sanitizeSQL q)),
                DbCall.admin createTableQuery.data, DbCall.admin seedQuery.data]
                (fixColumnQuoting (sanitizeSQL q)) with rows2 | c3
            · rw [h5] at h
              simp at h
              exact h
            · rw [h5] at h
              simp at h
              exact h
          · rw [h4] at h
            simp at h
            exact h
        · rw [h3] at h
          simp at h
          exact h
      · rw [if_neg h2] at h
        simp at h
        exact h

/-- C1 (corrected): for every semicolon-free input string passed to the Query
Executor `getLegalPrompts`, every SQL string actually submitted to the
database at a `sql.query(sanitizedQuery)` site — on the first execution
attempt and on the single retry after table auto-creation — satisfies the
Validator's predicate: the normalization applied after validation
(`fixColumnQuoting ∘ sanitizeSQL`) preserves `validateQuery`'s acceptance.
(Without the semicolon restriction the invariant fails: semicolon removal can
join fragments into a forbidden keyword, see the counterexample.) -/
theorem C1_executor_invariant (oracle : List DbCall → List Char → DbResp)
    (q : List Char) (hsc : ';' ∉ q) :
    ∀ s, DbCall.attempt s ∈ (getLegalPrompts oracle q).2 →
      (validateQuery s).isValid = true := by
  intro s h
  by_cases hv : (validateQuery q).isValid = true
  · rw [attempts_trace oracle q s h]
    exact validator_preserved q hsc hv
  · exfalso
    simp only [getLegalPrompts, bool_eq_false hv, Bool.not_false, if_true] at h
    simp at h

set_option maxRecDepth 8000 in
theorem C1_executor_invariant_witness :
    ';' ∉ "select id from legalprompt".data ∧
    DbCall.attempt (fixColumnQuoting (sanitizeSQL "select id from legalprompt".data)) ∈
      (getLegalPrompts (fun _ _ => DbResp.ok []) "select id from legalprompt".data).2 ∧
    (validateQuery
      (fixColumnQuoting (sanitizeSQL "select id from legalprompt".data))).isValid = true :=
  ⟨by decide, by decide,
    C1_executor_invariant (fun _ _ => DbResp.ok []) "select id from legalprompt".data
      (by decide) _ (by decide)⟩

set_option maxRecDepth 8000 in
theorem C1_counterexample :
    (validateQuery "select dr;op".data).isValid = true ∧
    (getLegalPrompts (fun _ _ => DbResp.ok []) "select dr;op".data).2 =
      [DbCall.attempt "select drop".data] ∧
    (validateQuery "select drop".data).isValid = false := by
  refine ⟨by decide, by decide, by decide⟩
